import Mathlib

/-!
# Verification of the ASPP grader scoring and ranking engine

A shallow embedding, in Lean 4, of the scoring/ranking core of the grader
repository (files `grader/grader.py`, `grader/person.py`,
`grader/applications.py` / `grader/applications_.py`), together with proofs
and refutations of the specified properties.

Conventions of the embedding:
* Python floats are modelled as `Option ℚ`: `none` is NaN, `some q` a real
  value.  Python comparison semantics with NaN (every comparison false,
  `!=` true) are modelled explicitly.
* Python exceptions are modelled with `Except PErr`; the error cases mirror
  the exception classes raised by the code.
* Python dicts are modelled as association lists with first-match lookup and
  in-place replacing update (`alSet`), which preserves insertion order like
  Python dicts do.
* Formulas, which the code keeps as Python source text and feeds to `eval`,
  are modelled by the expression AST `Expr` covering the restricted
  expression language the formulas use (arithmetic, comparisons, boolean
  operators, string literals and label membership).  Python `bool` results
  are collapsed to the numbers 0/1 (in Python `bool` is a subtype of `int`
  with `True == 1`, so this is observation-equivalent for every context the
  grader uses).  The text-level operations of the code (`formula.split('+')`,
  quoted-substring scans) are modelled on the AST resp. on the raw text,
  as detailed at their definitions.
-/

deriving instance DecidableEq for Except

set_option allowUnsafeReducibility true

attribute [semireducible] Rat.mul Rat.inv Rat.add Rat.sub Rat.ofScientific

namespace ASPP

/-- Python exceptions raised by the modelled code paths. -/
inductive PErr where
  | nameError
  | typeError
  | keyError
  | attributeError
  | zeroDivisionError
  | valueError
  | assertionError
  deriving DecidableEq, Repr

/-- Values the grader's formula evaluation manipulates.  `num none` is NaN.
Python booleans are represented as `num 0`/`num 1`. -/
inductive Val where
  | num (q : Option ℚ)
  | str (s : String)
  | strlist (ls : List String)
  deriving DecidableEq, Repr

/-- The restricted expression language of grader formulas (see §6 of the
spec: identifiers, literals, `+ - * /`, comparisons, `and or not`,
membership in the label list). -/
inductive Expr where
  | lit (v : Val)
  | var (name : String)
  | add (a b : Expr)
  | sub (a b : Expr)
  | mul (a b : Expr)
  | div (a b : Expr)
  | eq (a b : Expr)
  | ne (a b : Expr)
  | lt (a b : Expr)
  | le (a b : Expr)
  | gt (a b : Expr)
  | ge (a b : Expr)
  | band (a b : Expr)
  | bor (a b : Expr)
  | bnot (a : Expr)
  | mem (a b : Expr)
  deriving DecidableEq, Repr

/-- NaN-propagating lift of a binary rational operation (Python float
arithmetic on non-zero-division cases). -/
def liftNum2 (f : ℚ → ℚ → ℚ) : Option ℚ → Option ℚ → Option ℚ
  | some a, some b => some (f a b)
  | _, _ => none

/-- Python `+` on grader values: float addition (NaN propagating) or string
concatenation; other combinations raise `TypeError`. -/
def pyAdd : Val → Val → Except PErr Val
  | .num a, .num b => .ok (.num (liftNum2 (· + ·) a b))
  | .str a, .str b => .ok (.str (a ++ b))
  | _, _ => .error .typeError

/-- Python `-` on grader values. -/
def pySub : Val → Val → Except PErr Val
  | .num a, .num b => .ok (.num (liftNum2 (· - ·) a b))
  | _, _ => .error .typeError

/-- Python `*` on grader values (numeric only; the grader formulas never use
sequence repetition, which we therefore model as `TypeError`). -/
def pyMul : Val → Val → Except PErr Val
  | .num a, .num b => .ok (.num (liftNum2 (· * ·) a b))
  | _, _ => .error .typeError

/-- Python `/` on grader values: raises `ZeroDivisionError` on a zero
divisor (also when the dividend is NaN), propagates NaN otherwise. -/
def pyDiv : Val → Val → Except PErr Val
  | .num a, .num b =>
    match b with
    | some q => if q = 0 then .error .zeroDivisionError else .ok (.num (a.map (· / q)))
    | none => .ok (.num none)
  | _, _ => .error .typeError

/-- Python `==` on grader values: NaN is not equal to anything (including
itself); values of different types compare unequal without error. -/
def pyEqB : Val → Val → Bool
  | .num (some a), .num (some b) => a = b
  | .num _, .num _ => false
  | .str a, .str b => a = b
  | .strlist a, .strlist b => a = b
  | _, _ => false

/-- Python `<` on grader values: numeric comparison is false whenever NaN is
involved; strings compare lexicographically; mixing numbers and strings
raises `TypeError`. -/
def pyLtV : Val → Val → Except PErr Bool
  | .num (some a), .num (some b) => .ok (decide (a < b))
  | .num _, .num _ => .ok false
  | .str a, .str b => .ok (decide (a < b))
  | _, _ => .error .typeError

/-- Python `<=` on grader values (false whenever NaN is involved). -/
def pyLeV : Val → Val → Except PErr Bool
  | .num (some a), .num (some b) => .ok (decide (a ≤ b))
  | .num _, .num _ => .ok false
  | .str a, .str b => .ok (decide (a < b ∨ a = b))
  | _, _ => .error .typeError

/-- Python truthiness of grader values (`bool(nan)` is `True`). -/
def pyTruthy : Val → Bool
  | .num (some q) => q ≠ 0
  | .num none => true
  | .str s => s ≠ ""
  | .strlist l => l ≠ []

/-- A Python boolean as a grader value. -/
def boolVal (b : Bool) : Val := .num (some (if b then 1 else 0))

/-- Evaluation of a formula expression over a variable environment, the
model of `eval(formula, vars, {})`.  An unbound identifier raises
`NameError`. -/
def evalE (env : List (String × Val)) : Expr → Except PErr Val
  | .lit v => .ok v
  | .var n =>
    match env.lookup n with
    | some v => .ok v
    | none => .error .nameError
  | .add a b => do pyAdd (← evalE env a) (← evalE env b)
  | .sub a b => do pySub (← evalE env a) (← evalE env b)
  | .mul a b => do pyMul (← evalE env a) (← evalE env b)
  | .div a b => do pyDiv (← evalE env a) (← evalE env b)
  | .eq a b => do pure (boolVal (pyEqB (← evalE env a) (← evalE env b)))
  | .ne a b => do pure (boolVal (!pyEqB (← evalE env a) (← evalE env b)))
  | .lt a b => do pure (boolVal (← pyLtV (← evalE env a) (← evalE env b)))
  | .le a b => do pure (boolVal (← pyLeV (← evalE env a) (← evalE env b)))
  | .gt a b => do pure (boolVal (← pyLtV (← evalE env b) (← evalE env a)))
  | .ge a b => do pure (boolVal (← pyLeV (← evalE env b) (← evalE env a)))
  | .band a b => do
    let x ← evalE env a
    if pyTruthy x then evalE env b else pure x
  | .bor a b => do
    let x ← evalE env a
    if pyTruthy x then pure x else evalE env b
  | .bnot a => do pure (boolVal (!pyTruthy (← evalE env a)))
  | .mem a b => do
    match (← evalE env a), (← evalE env b) with
    | .str s, .strlist ls => pure (boolVal (decide (s ∈ ls)))
    | _, _ => .error .typeError

/-- `eval_formula` from `grader.py`: evaluate and convert `NameError` and
`TypeError` into `ValueError`; all other exceptions propagate unchanged. -/
def evalFormula (env : List (String × Val)) (e : Expr) : Except PErr Val :=
  match evalE env e with
  | .error .nameError => .error .valueError
  | .error .typeError => .error .valueError
  | r => r

/-- Round-half-to-even of a rational to an integer, the rounding mode of
Python's builtin `round`. -/
def rhe (q : ℚ) : ℤ :=
  let f := q.floor
  let r := q - f
  if r < 1/2 then f
  else if 1/2 < r then f + 1
  else if f % 2 = 0 then f else f + 1

/-- Python `round(x, 5)` on a real value. -/
def pyRound5 (q : ℚ) : ℚ := (rhe (q * 100000) : ℚ) / 100000

/-- One step of Python's `max` over a list: keep the accumulator unless the
next element compares strictly greater. -/
def pyMaxFold (acc : Val) : List Val → Except PErr Val
  | [] => .ok acc
  | x :: xs =>
    match pyLtV acc x with
    | .error e => .error e
    | .ok b => pyMaxFold (if b then x else acc) xs

/-- Python `max(values)`: `ValueError` on an empty list, otherwise a fold
with `>` over the elements. -/
def pyMaxList : List Val → Except PErr Val
  | [] => .error .valueError
  | v :: vs => pyMaxFold v vs

/-- One step of Python's `min` over a list. -/
def pyMinFold (acc : Val) : List Val → Except PErr Val
  | [] => .ok acc
  | x :: xs =>
    match pyLtV x acc with
    | .error e => .error e
    | .ok b => pyMinFold (if b then x else acc) xs

/-- Python `min(values)`. -/
def pyMinList : List Val → Except PErr Val
  | [] => .error .valueError
  | v :: vs => pyMinFold v vs

/-- `mapM` for `Except`, written structurally so that proofs can proceed by
plain induction; models a Python list comprehension whose body may raise. -/
def exMapM (f : α → Except PErr β) : List α → Except PErr (List β)
  | [] => .ok []
  | a :: as' =>
    match f a with
    | .error e => .error e
    | .ok b =>
      match exMapM f as' with
      | .error e => .error e
      | .ok bs => .ok (b :: bs)

/-- The free identifiers of a formula, with duplicates, in syntactic
order: the model of the `tokenize`-based scan in `find_names` (string
literals are STRING tokens, not NAME tokens, and the operators `and`, `or`,
`not`, `in` are keywords, so exactly the variable occurrences remain). -/
def namesAux : Expr → List String
  | .lit _ => []
  | .var n => [n]
  | .add a b | .sub a b | .mul a b | .div a b
  | .eq a b | .ne a b | .lt a b | .le a b | .gt a b | .ge a b
  | .band a b | .bor a b | .mem a b => namesAux a ++ namesAux b
  | .bnot a => namesAux a

/-- `find_names(formula)`: the set of free identifiers (first occurrences
kept, mirroring a Python `set` up to iteration order). -/
def findNames (e : Expr) : List String := (namesAux e).dedup

/-- The `+`-separated top-level terms of a formula.  The code splits the
formula *text* on every `'+'`; for a formula whose `+` operators all occur
at top level (the only case in which the code's fragments parse at all)
this equals the additive decomposition of the AST. -/
def termsOf : Expr → List Expr
  | .add a b => termsOf a ++ termsOf b
  | e => [e]

/-- Whether `sub` occurs as a contiguous sublist (substring) starting at the
head of `l`. -/
def startsList : List Char → List Char → Bool
  | [], _ => true
  | _ :: _, [] => false
  | a :: as', b :: bs => a = b && startsList as' bs

/-- Python's `sub in s` substring containment on character lists. -/
def containsSub (sub : List Char) : List Char → Bool
  | [] => startsList sub []
  | c :: rest => startsList sub (c :: rest) || containsSub sub rest

/-! ## Rating-key normalization

`grader.py:get_rating` normalizes with
`key.partition('(')[0].partition('/')[0].strip().partition(',')[0].strip()`;
`person.py:Person.get_rating` normalizes with
`re.match(r'(.+?)\s*(?:[(/,]|$)', val).group(1).lower()`.
Both are modelled on `List Char`. -/

/-- Python's `str.isspace` character class (`\s` of the `re` module, ASCII
range). -/
def pyIsSpaceC (c : Char) : Bool :=
  c = ' ' || c = '\t' || c = '\n' || c = '\r' || c = '\x0b' || c = '\x0c'

/-- The delimiter class `[(/,]` at which rating keys are truncated. -/
def pyDelim (c : Char) : Bool := c = '(' || c = '/' || c = ','

/-- Remove leading whitespace (the left half of Python `str.strip`). -/
def trimL (l : List Char) : List Char := l.dropWhile pyIsSpaceC

/-- Remove trailing whitespace (the right half of Python `str.strip`),
written structurally. -/
def trimR : List Char → List Char
  | [] => []
  | a :: t =>
    match trimR t with
    | [] => if pyIsSpaceC a then [] else [a]
    | b :: u => a :: b :: u

/-- Python `str.strip()`: remove whitespace from both ends. -/
def stripChars (l : List Char) : List Char := trimR (trimL l)

/-- `s.partition(c)[0]`: the part of `s` before the first occurrence of
`c` (all of `s` if `c` does not occur). -/
def takeUntil (c : Char) (l : List Char) : List Char := l.takeWhile (fun x => x != c)

/-- The normalization chain of `grader.py:get_rating`:
`.partition('(')[0].partition('/')[0].strip().partition(',')[0].strip()`.
Note: no lower-casing happens in this version. -/
def graderNorm (l : List Char) : List Char :=
  stripChars (takeUntil ',' (stripChars (takeUntil '/' (takeUntil '(' l))))

/-- ASCII lower-casing of a character (the effect of Python `str.lower` on
the ASCII letters the rating keys consist of), as an explicit table. -/
def upperLower : List (Char × Char) :=
  [('A', 'a'), ('B', 'b'), ('C', 'c'), ('D', 'd'), ('E', 'e'), ('F', 'f'),
   ('G', 'g'), ('H', 'h'), ('I', 'i'), ('J', 'j'), ('K', 'k'), ('L', 'l'),
   ('M', 'm'), ('N', 'n'), ('O', 'o'), ('P', 'p'), ('Q', 'q'), ('R', 'r'),
   ('S', 's'), ('T', 't'), ('U', 'u'), ('V', 'v'), ('W', 'w'), ('X', 'x'),
   ('Y', 'y'), ('Z', 'z')]

/-- Lower-case one character. -/
def pyLower (c : Char) : Char := (upperLower.lookup c).getD c

/-- The normalization of `person.py:Person.get_rating`:
`re.match(r'(.+?)\s*(?:[(/,]|$)', val).group(1).lower()`.
The regex takes the prefix of `val` up to (excluding) the first delimiter
`[(/,]` occurring at position ≥ 1 (the non-greedy group needs at least one
character), strips the whitespace run adjacent to that delimiter or to the
end (again leaving at least one character), and lower-cases the result.
On the empty string the regex fails to match (`None.group` raises), which
is returned as `none`.  (For inputs containing a newline the Python regex
can also fail to match because `.` excludes newlines; rating answers never
contain newlines, and the definition below treats `'\n'` like any other
character.) -/
def personNormalize (l : List Char) : Option (List Char) :=
  match l with
  | [] => none
  | a :: t =>
    let pre := a :: t.takeWhile (fun c => !pyDelim c)
    let g := trimR pre
    some ((if g = [] then [a] else g).map pyLower)

/-! ## `grader.py`: scoring a person (`get_rating`, `categorical_scores`,
`rank_person`) -/

/-- `grader.py:get_rating(name, dict, key)` (with the default
`fallback=None`, as used by `categorical_scores`): an empty raw value is
replaced by the key `"(none)"`, any other value is normalized by
`graderNorm`; a missing entry raises `MissingRating` (a `KeyError`). -/
def getRatingG (dict : List (String × ℚ)) (key : String) : Except PErr ℚ :=
  let key' := if key = "" then "(none)" else String.mk (graderNorm key.toList)
  match dict.lookup key' with
  | some v => .ok v
  | none => .error .keyError

/-- An applicant as seen by `grader.py:rank_person`: the plain attributes
the `vars` environment is built from, plus the raw textual answers for the
rating categories (`getattr(person, attr)`; a category the person record
lacks is simply absent from the list, modelling the `AttributeError`
branch of `categorical_scores`). -/
structure PersonR where
  born : ℤ
  gender : String
  nationality : String
  affiliation : String
  email : String
  ratingAnswers : List (String × String)
  deriving DecidableEq, Repr

/-- `grader.py:categorical_scores(person, categories)`. -/
def categoricalScores (answers : List (String × String))
    (categories : List (String × List (String × ℚ))) :
    Except PErr (List (String × Val)) :=
  categories.foldlM
    (fun vars cat =>
      match answers.lookup cat.1 with
      | none => .ok vars
      | some key =>
        match getRatingG cat.2 key with
        | .error e => .error e
        | .ok v => .ok (vars ++ [(cat.1, Val.num (some v))]))
    []

/-- `KNOWN_GENDER_LABELS` from `grader.py`. -/
def KNOWN_GENDER_LABELS : List (String × String) :=
  [("female", "F"), ("male", "M"), ("other", "O"), ("non-binary", "O"),
   ("", "U"), ("prefer not to say", "U")]

/-- `gender_to_formula_label`: dictionary lookup on the lower-cased label,
`KeyError` when unknown. -/
def genderToFormulaLabel (label : String) : Except PErr String :=
  match KNOWN_GENDER_LABELS.lookup (String.mk (label.toList.map pyLower)) with
  | some v => .ok v
  | none => .error .keyError

/-- `vector.mean` / `list_of_float.mean`: drop the `None` entries; the mean
of no values is NaN (the stored motivation scores are integers, so
`np.nanmean` is the plain arithmetic mean). -/
def motivationMean (scores : List (Option ℚ)) : Option ℚ :=
  let valid := scores.filterMap id
  if valid = [] then none else some (valid.sum / valid.length)

/-- The `vars` environment built by `rank_person`.  `vars.update(...)`
overwrites the categorical entries, so the update entries are placed first
for the first-match lookup.  (`int(person.born) if person.born else 0`
equals `person.born` for every integer, since `born = 0` is mapped to 0.) -/
def rankVars (p : PersonR) (location : String)
    (categories : List (String × List (String × ℚ)))
    (motivationScores : List (Option ℚ)) (labels : List String)
    (applied : ℕ) : Except PErr (List (String × Val)) := do
  let cvars ← categoricalScores p.ratingAnswers categories
  let g ← genderToFormulaLabel p.gender
  let nonmale := boolVal (String.mk (p.gender.toList.map pyLower) ≠ "male")
  pure ([("born", Val.num (some (p.born : ℚ))),
         ("gender", Val.str g),
         ("nonmale", nonmale),
         ("female", nonmale),
         ("applied", Val.num (some (applied : ℚ))),
         ("nationality", Val.str p.nationality),
         ("affiliation", Val.str p.affiliation),
         ("location", Val.str location),
         ("motivation", Val.num (motivationMean motivationScores)),
         ("email", Val.str p.email),
         ("labels", Val.strlist labels)] ++ cvars)

/-- `grader.py:rank_person`: build the variable environment, evaluate the
formula through `eval_formula`, round the score to 5 digits, and check the
assertion `math.isnan(score) or minsc <= score <= maxsc or labels`
(`labels` is list truthiness).  `round` of a non-number raises
`TypeError`. -/
def rankPerson (p : PersonR) (formula : Expr) (location : String)
    (categories : List (String × List (String × ℚ)))
    (motivationScores : List (Option ℚ)) (minsc maxsc : Option ℚ)
    (labels : List String) (applied : ℕ) : Except PErr Val := do
  let vars ← rankVars p location categories motivationScores labels applied
  let score ← evalFormula vars formula
  match score with
  | .num q =>
    let q := q.map pyRound5
    let leB : Option ℚ → Option ℚ → Bool := fun a b =>
      match a, b with
      | some x, some y => decide (x ≤ y)
      | _, _ => false
    if q.isNone || (leB minsc q && leB q maxsc) || !labels.isEmpty then
      pure (Val.num q)
    else
      .error .assertionError
  | _ => .error .typeError

/-! ## `grader.py`: range analysis (`find_min_max`) -/

/-- `SCORE_RANGE` from `grader.py`. -/
def SCORE_RANGE : List ℚ := [-1, 0, 1]

/-- The nationality/affiliation domain built at the top of `find_min_max`:
the two `NOWHERE` sentinels and the configured location, plus every country
from the applicant pool whose *quoted* form is found in the formula text.
The code tests the pair `(f"'{country}'", '"{country}"')`; the second
element is missing its `f` prefix, so it is the seven-character literal
`"{country}"` rather than the double-quoted country name. -/
def buildCountryDomain (ftext : String) (location : String)
    (countries : List String) : List String :=
  ["NOWHERE", "NOWHERE2", location] ++
    countries.filter (fun c =>
      (containsSub ("'" ++ c ++ "'").toList ftext.toList
        || containsSub "\"\x7bcountry\x7d\"".toList ftext.toList)
      && c ≠ location)

/-- The `choices` dictionary of `find_min_max`, mapping each formula
variable to its synthetic domain.  `appliedMax` is `max(applied)`;
`natList` is the country domain above (the code builds two identical lists
for `nationality` and `affiliation`). -/
def fmChoices (location : String)
    (programmingRating openSourceRating pythonRating vcsRating
      underrepRating : List (String × ℚ))
    (appliedMax : ℕ) (natList : List String) : List (String × List Val) :=
  [("born", [Val.num (some 1900), Val.num (some 2012)]),
   ("gender", [Val.str "F", Val.str "M", Val.str "O", Val.str "U"]),
   ("nonmale", [Val.num (some 0), Val.num (some 1)]),
   ("applied", [Val.num (some 0), Val.num (some (appliedMax : ℚ))]),
   ("nationality", natList.map Val.str),
   ("affiliation", natList.map Val.str),
   ("location", [Val.str location]),
   ("motivation", SCORE_RANGE.map (fun q => Val.num (some q))),
   ("programming", programmingRating.map (fun kv => Val.num (some kv.2))),
   ("open_source", openSourceRating.map (fun kv => Val.num (some kv.2))),
   ("python", pythonRating.map (fun kv => Val.num (some kv.2))),
   ("vcs", vcsRating.map (fun kv => Val.num (some kv.2))),
   ("underrep", underrepRating.map (fun kv => Val.num (some kv.2))),
   ("labels", [])]

/-- `itertools.product` over the per-variable domains: the list of all
variable assignments, first variable varying slowest.  A variable that is
not a key of `choices` raises `KeyError` (as `choices[n]` does).  The
product of *no* domains is the single empty assignment. -/
def fmCombos (names : List String) (choices : List (String × List Val)) :
    Except PErr (List (List (String × Val))) :=
  match names with
  | [] => .ok [[]]
  | n :: ns =>
    match choices.lookup n with
    | none => .error .keyError
    | some vs =>
      match fmCombos ns choices with
      | .error e => .error e
      | .ok rest => .ok ((vs.map (fun v => rest.map (fun combo => (n, v) :: combo))).flatten)

/-- The contribution of one `+`-separated term:
`(max(values)-min(values)) / (maxsc-minsc) * 100` over the same
combinations. -/
def contribOf (combos : List (List (String × Val))) (minsc maxsc : Val)
    (t : Expr) : Except PErr (Expr × Val) :=
  match exMapM (fun combo => evalFormula combo t) combos with
  | .error e => .error e
  | .ok tvals =>
    match pyMaxList tvals with
    | .error e => .error e
    | .ok mx =>
      match pyMinList tvals with
      | .error e => .error e
      | .ok mn =>
        match pySub mx mn with
        | .error e => .error e
        | .ok d1 =>
          match pySub maxsc minsc with
          | .error e => .error e
          | .ok d2 =>
            match pyDiv d1 d2 with
            | .error e => .error e
            | .ok r =>
              match pyMul r (Val.num (some 100)) with
              | .error e => .error e
              | .ok c => .ok (t, c)

/-- The `choices` of `find_min_max` assembled from its raw arguments:
`applied` is split into its head `a0` and tail `arest`
(`max(applied) = arest.foldl Nat.max a0`), and the country domain is built
from the deduplicated concatenation (a Python `set`) of all nationalities
and affiliations. -/
def fmChoicesOf (ftext location : String)
    (programmingRating openSourceRating pythonRating vcsRating
      underrepRating : List (String × ℚ))
    (a0 : ℕ) (arest : List ℕ) (allNationalities allAffiliations : List String) :
    List (String × List Val) :=
  fmChoices location programmingRating openSourceRating pythonRating
    vcsRating underrepRating (arest.foldl Nat.max a0)
    (buildCountryDomain ftext location
      ((allNationalities ++ allAffiliations).dedup))

/-- `grader.py:find_min_max`.  `applied` is `self._applied_range()` (the
sorted set of `napplied` values; `max` of an empty list raises
`ValueError`).  `ftext` is the formula source text, used only for the
quoted-country scan; `formula` is its AST.  The returned item list models
the `OrderedDict` of per-term contributions (`formula.split('+')` keeps
duplicate terms only once in Python; the contribution computed for a
duplicate term is identical, so only the key multiplicity differs). -/
def findMinMax (formula : Expr) (ftext : String) (location : String)
    (programmingRating openSourceRating pythonRating vcsRating
      underrepRating : List (String × ℚ))
    (applied : List ℕ) (allNationalities allAffiliations : List String) :
    Except PErr (Val × Val × List (Expr × Val)) :=
  match applied with
  | [] => .error .valueError
  | a0 :: arest =>
    match fmCombos (findNames formula)
        (fmChoicesOf ftext location programmingRating openSourceRating
          pythonRating vcsRating underrepRating a0 arest
          allNationalities allAffiliations) with
    | .error e => .error e
    | .ok combos =>
      match exMapM (fun combo => evalFormula combo formula) combos with
      | .error e => .error e
      | .ok values =>
        if values = [] then
          .ok (Val.num none, Val.num none, [])
        else
          match pyMinList values with
          | .error e => .error e
          | .ok minsc =>
            match pyMaxList values with
            | .error e => .error e
            | .ok maxsc =>
              match exMapM (contribOf combos minsc maxsc) (termsOf formula) with
              | .error e => .error e
              | .ok items => .ok (minsc, maxsc, items)

/-! ## `applications.py` / `applications_.py`: the INI store, and
`person.py`: `Person` with its score cache and `FormulaProxy` -/

/-- Python `s.startswith(pre)`. -/
def pyStarts (pre s : String) : Bool := startsList pre.toList s.toList

/-- Replacing update of an association list (a Python dict assignment:
existing keys keep their position, new keys are appended). -/
def alSet [DecidableEq α] (l : List (α × β)) (k : α) (v : β) : List (α × β) :=
  match l with
  | [] => [(k, v)]
  | (k', v') :: rest => if k' = k then (k, v) :: rest else (k', v') :: alSet rest k v

/-- The `ApplicationsIni` state: the global generation counter, the
`modifications_without_generation` flag, and the section data
`{section : {key : value}}`. -/
structure IniM where
  generation : ℕ
  modificationsWithoutGeneration : Bool
  data : List (String × List (String × Val))
  deriving DecidableEq, Repr

/-- `ApplicationsIni.__setitem__` for the dotted key
`f'{sname}.{kname}'` (the method splits the dotted key back into the two
parts; names used in dotted keys never contain dots themselves).  A missing
section is created, the value stored, and then: a section named
`motivation_score-*` or `labels*` only sets
`modifications_without_generation`, every other section increments the
global generation counter. -/
def iniSetItem (ini : IniM) (sname kname : String) (v : Val) : IniM :=
  let data0 :=
    match ini.data.lookup sname with
    | some _ => ini.data
    | none => ini.data ++ [(sname, [])]
  let data' := data0.map (fun sec =>
    if sec.1 = sname then (sec.1, alSet sec.2 kname v) else sec)
  if pyStarts "motivation_score-" sname || pyStarts "labels" sname then
    { ini with data := data', modificationsWithoutGeneration := true }
  else
    { ini with data := data', generation := ini.generation + 1 }

/-- `ApplicationsIni.__getitem__` for a dotted key: look up the key `kname`
inside the section `sname`, `None` when either is missing. -/
def iniGetItem (ini : IniM) (sname kname : String) : Option Val :=
  (ini.data.lookup sname).bind (fun sec => sec.lookup kname)

/-- `ApplicationsIni.get_ratings(field)`: the first section whose name
`rsplit('_', 1)`s into `(field, 'rating')`, i.e. the section named
`f'{field}_rating'`. -/
def iniGetRatings (ini : IniM) (field : String) : Option (List (String × Val)) :=
  ini.data.findSome? (fun sec =>
    if sec.1 = field ++ "_rating" then some sec.2 else none)

/-- Python `str.lower` (ASCII fragment, see `pyLower`). -/
def lowerStr (s : String) : String := String.mk (s.toList.map pyLower)

/-- `ApplicationsIni.get_labels(fullname)`: `self[f'labels.{key}'] or []`. -/
def iniGetLabels (ini : IniM) (fullname : String) : List String :=
  match iniGetItem ini "labels" (lowerStr fullname) with
  | some (.strlist ls) => ls
  | _ => []

/-- The identities mentioned by `motivation_score-*` sections
(`ApplicationsIni.identities`). -/
def iniIdentities (ini : IniM) : List String :=
  ini.data.filterMap (fun sec =>
    if pyStarts "motivation_score-" sec.1 then
      some (sec.1.drop "motivation_score-".length)
    else none)

/-- `ApplicationsIni.get_motivation_scores(fullname)`: for each identity the
entry of `motivation_score-{identity}` under the lower-cased full name
(`None` when absent). -/
def iniGetMotivationScores (ini : IniM) (fullname : String) : List (Option Val) :=
  (iniIdentities ini).map (fun idy =>
    iniGetItem ini ("motivation_score-" ++ idy) (lowerStr fullname))

/-- `vector.mean` over INI motivation entries: drop the `None`s; mean of
none is NaN.  The stored values are integers (`SECTION_TYPES` coerces the
section to `int`), so only numeric values appear. -/
def meanOfVals (vs : List (Option Val)) : Option ℚ :=
  let nums := vs.filterMap (fun ov =>
    match ov with
    | some (.num (some q)) => some q
    | _ => none)
  if vs.filterMap id = [] then none
  else if nums = [] then none
  else some (nums.sum / nums.length)

/-- A `person.py:Person`: full name, the generation counter `_generation`,
the score cache `_score_cache` keyed by
`(self._generation, self._ini.generation, formula)`, and the plain
attributes (including the raw textual rating answers). -/
structure PersonC where
  fullname : String
  gen : ℕ
  cache : List ((ℕ × ℕ × String) × ℚ)
  attrs : List (String × Val)
  deriving DecidableEq, Repr

/-- `Person.calculate_score(formula)` (with an INI file attached): build the
cache key, return the cached value on a hit; otherwise evaluate the formula
(abstracted as `evalF`, the `FormulaProxy(self).evaluate(formula)` call) and
store the result in the cache.  The mutated person state is returned
alongside; on an evaluation error the exception propagates and the person
(in particular the cache) is returned unchanged. -/
def calculateScore (evalF : PersonC → IniM → String → Except PErr ℚ)
    (p : PersonC) (ini : IniM) (formula : String) :
    Except PErr ℚ × PersonC :=
  match p.cache.lookup (p.gen, ini.generation, formula) with
  | some v => (.ok v, p)
  | none =>
    match evalF p ini formula with
    | .error e => (.error e, p)
    | .ok v =>
      (.ok v, { p with cache := alSet p.cache (p.gen, ini.generation, formula) v })

/-- `Person.__setattr__`: store the attribute and increment the person's
generation counter. -/
def personSetAttr (p : PersonC) (attr : String) (v : Val) : PersonC :=
  { p with attrs := alSet p.attrs attr v, gen := p.gen + 1 }

/-- Insertion into a sorted list of strings (ascending), used to model
Python's `sorted` over label sets. -/
def insertStr (s : String) : List String → List String
  | [] => [s]
  | t :: ts => if s < t ∨ s = t then s :: t :: ts else t :: insertStr s ts

/-- Python `sorted` over a list of strings. -/
def sortStrings (l : List String) : List String := l.foldr insertStr []

/-- `ApplicationsIni.add_label(fullname, label)`: no-op returning `False`
when the label is present; otherwise write the sorted union through
`self[f'labels.{key}'] = sorted(labels)` and return `True`. -/
def iniAddLabel (ini : IniM) (fullname label : String) : Bool × IniM :=
  let old := iniGetLabels ini fullname
  if label ∈ old then (false, ini)
  else
    (true,
     iniSetItem ini "labels" (lowerStr fullname)
       (.strlist (sortStrings ((label :: old).dedup))))

/-- `Person.add_label`: delegate to the INI and increment the person's
generation counter when a modification happened. -/
def personAddLabel (p : PersonC) (ini : IniM) (label : String) :
    PersonC × IniM :=
  match iniAddLabel ini p.fullname label with
  | (mod, ini') => (if mod then { p with gen := p.gen + 1 } else p, ini')

/-- `ApplicationsIni.set_motivation_score`: a write to
`motivation_score-{identity}.{fullname.lower()}`. -/
def iniSetMotivationScore (ini : IniM) (fullname : String) (v : Val)
    (identity : String) : IniM :=
  iniSetItem ini ("motivation_score-" ++ identity) (lowerStr fullname) v

/-- `Person.set_motivation_score`: write through the INI and increment the
person's generation counter. -/
def personSetMotivationScore (p : PersonC) (ini : IniM) (v : Val)
    (identity : String) : PersonC × IniM :=
  ({ p with gen := p.gen + 1 }, iniSetMotivationScore ini p.fullname v identity)

/-- `person.py:Person.get_rating(name)`: `AttributeError` when there is no
`{name}_rating` section or no such person attribute; NaN for an empty raw
value; otherwise normalize the raw value (`personNormalize` plus
lower-casing) and look it up, raising `KeyError` when unrated.  A non-string
attribute makes `re.match` raise `TypeError`. -/
def personGetRating (p : PersonC) (ini : IniM) (name : String) :
    Except PErr Val :=
  match iniGetRatings ini name with
  | none => .error .attributeError
  | some ratings =>
    match p.attrs.lookup name with
    | none => .error .attributeError
    | some (.str s) =>
      if s = "" then .ok (.num none)
      else
        match personNormalize s.toList with
        | none => .error .attributeError
        | some key =>
          match ratings.lookup (String.mk key) with
          | some rv => .ok rv
          | none => .error .keyError
    | some _ => .error .typeError

/-- `person.py:FormulaProxy.__getitem__(name)`: overrides first, then the
special names `motivation` and `nan`, then the formula-section globals
(`self.person._ini[f'formula.{name}']`), then `Person.get_rating` (only its
`AttributeError` falls through), and finally the plain attribute
(`getattr`). -/
def formulaProxyGet (overrides : List (String × Val)) (p : PersonC)
    (ini : IniM) (name : String) : Except PErr Val :=
  match overrides.lookup name with
  | some v => .ok v
  | none =>
    if name = "motivation" then
      .ok (.num (meanOfVals (iniGetMotivationScores ini p.fullname)))
    else if name = "nan" then .ok (.num none)
    else
      match iniGetItem ini "formula" name with
      | some v => .ok v
      | none =>
        match personGetRating p ini name with
        | .ok v => .ok v
        | .error .attributeError =>
          match p.attrs.lookup name with
          | some v => .ok v
          | none => .error .attributeError
        | .error e => .error e

/-- `Person.__post_init__` accepts exactly the birth years
`1900 <= born <= _year_now`; `_year_now` is the current year. -/
def yearNow : ℤ := 2026

/-- The birth-year sanity check of `Person.__post_init__`. -/
def personBornValid (born : ℤ) : Prop := 1900 ≤ born ∧ born ≤ yearNow

/-! ## `grader.py:Grader._assign_rankings`: the ranking loop -/

/-- An applicant entering the ranking loop: the raw score just assigned by
`rank_person` (`none` is NaN), the affiliation key
`institute + ' | ' + group` computed by `_group_institute`, and the label
set. -/
structure RPerson where
  score : Option ℚ
  lab : String
  labels : List String
  deriving DecidableEq, Repr

/-- `LABEL_VALUES` from `grader.py`. -/
def LABEL_VALUES : List (String × ℚ) :=
  [("VIP", 1000), ("CONFIRMED", 2000), ("INVITE", 600), ("INVITESL", 200),
   ("SHORTLIST", 100), ("__nan__", -500), ("DECLINED", -650),
   ("NEXT-YEAR", -650), ("WITHDRAWN", -650), ("OVERQUALIFIED", -650)]

/-- The label bonus accumulated by `Grader._score_with_labels`: each
`LABEL_VALUES` entry whose label is carried adds its value; the `INVITESL`
entry also fires when any carried label merely *contains* `INVITESL`. -/
def addScore (labels : List String) : ℚ :=
  LABEL_VALUES.foldl
    (fun acc lv =>
      if lv.1 ∈ labels then acc + lv.2
      else if lv.1 = "INVITESL"
          && labels.any (fun l => containsSub "INVITESL".toList l.toList) then
        acc + lv.2
      else acc)
    0

/-- `Grader._score_with_labels(p, use_labels)`: the raw score, or the raw
score plus the label bonus (NaN stays NaN under the addition). -/
def scoreWithLabels (useLabels : Bool) (p : RPerson) : Option ℚ :=
  if !useLabels then p.score else p.score.map (· + addScore p.labels)

/-- The `'__nan__'` sentinel of `LABEL_VALUES`. -/
def nanSentinel : ℚ := (LABEL_VALUES.lookup "__nan__").getD 0

/-- `nan_to_value` from `_assign_rankings`: NaN is replaced by the
`__nan__` sentinel. -/
def nanToValue : Option ℚ → ℚ
  | none => nanSentinel
  | some q => q

/-- The sort key of `_assign_rankings`:
`nan_to_value(self._score_with_labels(x, use_labels))`. -/
def sortKey (useLabels : Bool) (p : RPerson) : ℚ :=
  nanToValue (scoreWithLabels useLabels p)

/-- The sort `sorted(..., key=..., reverse=True)` — a stable descending
sort, modelled by Mathlib's (stable) insertion sort with the relation
"my key is at least yours". -/
def orderedPersons (useLabels : Bool) (ps : List RPerson) : List RPerson :=
  ps.insertionSort (fun a b => sortKey useLabels b ≤ sortKey useLabels a)

/-- Python `!=` on raw scores (floats): true when the values differ *or*
when either is NaN (`nan != nan` is true). -/
def pyNeB : Option ℚ → Option ℚ → Bool
  | some a, some b => a ≠ b
  | _, _ => true

/-- The loop state of `_assign_rankings`: the current rank number,
`prevscore`, the `highlander` flag, the `labs` map from affiliation key to
assigned rank, and the running count. -/
structure RankSt where
  rank : ℕ
  prevscore : Option ℚ
  highlander : Bool
  labs : List (String × ℕ)
  count : ℕ
  deriving DecidableEq, Repr

/-- The annotations `_assign_rankings` attaches to each person. -/
structure RankedOut where
  person : RPerson
  rank : ℕ
  highlander : Bool
  samelab : Bool
  deriving DecidableEq, Repr

/-- The initial loop state: `rank, prevscore = 0, 10000`,
`highlander = True`, `labs = {}`, `count = 0`. -/
def initRankSt : RankSt := ⟨0, some 10000, true, [], 0⟩

/-- One iteration of the ranking loop of `_assign_rankings`:
`samelab = highlander and lab in labs`; a samelab person inherits the
lab's rank, otherwise the rank counter advances on a raw-score change and
the lab is recorded; the count always advances; `highlander` flips to
`False` once the raw score changed and the count exceeds `accept_count`;
the person is annotated with the (possibly flipped) flag; `prevscore`
becomes the person's raw score. -/
def rankStep (acceptCount : ℕ) (st : RankSt) (p : RPerson) :
    RankSt × RankedOut :=
  let lab := p.lab
  let samelab := st.highlander && (st.labs.lookup lab).isSome
  let fr :=
    if samelab then ((st.labs.lookup lab).getD 0, st.rank, st.labs)
    else
      let r := if pyNeB p.score st.prevscore then st.rank + 1 else st.rank
      (r, r, (lab, r) :: st.labs)
  let count' := st.count + 1
  let high' :=
    if st.highlander && pyNeB p.score st.prevscore && decide (count' > acceptCount)
    then false else st.highlander
  (⟨fr.2.1, p.score, high', fr.2.2, count'⟩, ⟨p, fr.1, high', samelab⟩)

/-- The ranking loop over the sorted list. -/
def rankGo (acceptCount : ℕ) (st : RankSt) : List RPerson → List RankedOut
  | [] => []
  | p :: ps =>
    (rankStep acceptCount st p).2 :: rankGo acceptCount (rankStep acceptCount st p).1 ps

/-- `Grader._assign_rankings(use_labels)` restricted to its ranking core:
sort by the label-adjusted key (stable, descending) and run the ranking
loop from the initial state. -/
def assignRankings (useLabels : Bool) (acceptCount : ℕ) (ps : List RPerson) :
    List RankedOut :=
  rankGo acceptCount initRankSt (orderedPersons useLabels ps)

/-! ## Helper lemmas -/

theorem startsList_self_append (l m : List Char) : startsList l (l ++ m) = true := by
  induction l with
  | nil => rfl
  | cons a t ih => simp [startsList, ih]

theorem pyStarts_self_append (p t : String) : pyStarts p (p ++ t) = true := by
  simpa [pyStarts, String.toList] using startsList_self_append p.1 t.1

theorem lookup_gen_bound_none (cache : List ((ℕ × ℕ × String) × ℚ)) (g ag : ℕ)
    (f : String) (hk : ∀ k c, ((k, c) ∈ cache) → k.2.1 ≤ g) :
    cache.lookup (ag, g + 1, f) = none := by
  induction cache with
  | nil => rfl
  | cons e rest ih =>
    obtain ⟨k, c⟩ := e
    have hkg : k.2.1 ≤ g := hk k c (List.mem_cons_self _ _)
    have hne : ((ag, g + 1, f) == k) = false := by
      rw [beq_eq_false_iff_ne]
      intro h
      rw [← h] at hkg
      simp only at hkg
      omega
    simp only [List.lookup, hne]
    exact ih (fun k' c' h' => hk k' c' (List.mem_cons_of_mem _ h'))

theorem iniSetItem_generation_labels (ini : IniM) (kname : String) (v : Val) :
    (iniSetItem ini "labels" kname v).generation = ini.generation := by
  simp [iniSetItem, pyStarts, startsList]

theorem iniSetItem_generation_motivation (ini : IniM) (idy kname : String) (v : Val) :
    (iniSetItem ini ("motivation_score-" ++ idy) kname v).generation
      = ini.generation := by
  have h : pyStarts "motivation_score-" ("motivation_score-" ++ idy) = true :=
    pyStarts_self_append _ _
  simp [iniSetItem, h]

theorem iniSetItem_generation_other (ini : IniM) (sname kname : String) (v : Val)
    (h : (pyStarts "motivation_score-" sname || pyStarts "labels" sname) = false) :
    (iniSetItem ini sname kname v).generation = ini.generation + 1 := by
  simp [iniSetItem, h]

theorem iniAddLabel_generation (ini : IniM) (fn lb : String) :
    (iniAddLabel ini fn lb).2.generation = ini.generation := by
  unfold iniAddLabel
  by_cases h : lb ∈ iniGetLabels ini fn
  · simp [h]
  · simp [h, iniSetItem_generation_labels]

theorem personAddLabel_generation (p : PersonC) (ini : IniM) (lb : String) :
    (personAddLabel p ini lb).2.generation = ini.generation := by
  have h : (personAddLabel p ini lb).2 = (iniAddLabel ini p.fullname lb).2 := by
    cases h' : iniAddLabel ini p.fullname lb with
    | mk mod ini' => simp [personAddLabel, h']
  rw [h]
  exact iniAddLabel_generation _ _ _

theorem personSetMotivation_generation (p : PersonC) (ini : IniM) (v : Val)
    (idy : String) :
    (personSetMotivationScore p ini v idy).2.generation = ini.generation := by
  unfold personSetMotivationScore iniSetMotivationScore
  exact iniSetItem_generation_motivation _ _ _ _

theorem calculateScore_hit (evalF : PersonC → IniM → String → Except PErr ℚ)
    (p : PersonC) (ini : IniM) (f : String) (v : ℚ)
    (h : p.cache.lookup (p.gen, ini.generation, f) = some v) :
    calculateScore evalF p ini f = (.ok v, p) := by
  unfold calculateScore
  rw [h]

/-! ## Claim C10 -/

/-- C10: if formula evaluation fails, `Person.calculate_score` propagates
the exception and leaves the score cache unchanged — no entry is added for
the failing key and all previously cached entries remain intact (the whole
person state is returned unmodified). -/
theorem c10_failed_eval_leaves_cache_unchanged
    (evalF : PersonC → IniM → String → Except PErr ℚ) (p : PersonC)
    (ini : IniM) (f : String) (e : PErr)
    (hmiss : p.cache.lookup (p.gen, ini.generation, f) = none)
    (herr : evalF p ini f = .error e) :
    calculateScore evalF p ini f = (.error e, p) := by
  unfold calculateScore
  rw [hmiss, herr]

/-- Witness for C10 at a concrete person, cache and failing evaluation. -/
theorem c10_witness :
    calculateScore (fun _ _ _ => .error .nameError)
      ⟨"ada lovelace", 3, [((2, 0, "born"), 5)], []⟩ ⟨0, false, []⟩ "born"
      = (.error .nameError, ⟨"ada lovelace", 3, [((2, 0, "born"), 5)], []⟩) :=
  c10_failed_eval_leaves_cache_unchanged _ _ _ _ _ (by decide) rfl

/-! ## Claim C2 -/

/-- C2: the score cache is keyed by
`(applicant generation, global generation, formula text)` (see
`calculateScore`); mutating one applicant — attributes, labels or
motivation scores — never changes or invalidates the cached score of any
other applicant: the label/motivation writes go to `labels*` /
`motivation_score-*` sections which do not bump the global generation, so
another applicant's cached entry is still keyed correctly and is returned
unchanged, and an attribute write touches only the mutated applicant's own
generation counter.  Changing the formula (or any configuration not scoped
to a single applicant, i.e. any other section) bumps the global generation,
which invalidates every applicant's cached score: under the invariant that
cached keys never carry a future generation, the new lookup key misses. -/
theorem c2_cache_keying_and_invalidation
    (evalF : PersonC → IniM → String → Except PErr ℚ)
    (A B : PersonC) (ini : IniM) (f lb idy attr : String) (w : Val) (v : ℚ) :
    ((personAddLabel A ini lb).2.generation = ini.generation
      ∧ (B.cache.lookup (B.gen, ini.generation, f) = some v →
          calculateScore evalF B (personAddLabel A ini lb).2 f = (.ok v, B)))
  ∧ ((personSetMotivationScore A ini w idy).2.generation = ini.generation
      ∧ (B.cache.lookup (B.gen, ini.generation, f) = some v →
          calculateScore evalF B (personSetMotivationScore A ini w idy).2 f
            = (.ok v, B)))
  ∧ ((personSetAttr A attr w).cache = A.cache
      ∧ (personSetAttr A attr w).gen = A.gen + 1)
  ∧ (∀ sname kname,
      (pyStarts "motivation_score-" sname || pyStarts "labels" sname) = false →
      (iniSetItem ini sname kname w).generation = ini.generation + 1)
  ∧ ((iniSetItem ini "formula" "formula" w).generation = ini.generation + 1
      ∧ ((∀ k c, ((k, c) ∈ B.cache) → k.2.1 ≤ ini.generation) →
          B.cache.lookup
            (B.gen, (iniSetItem ini "formula" "formula" w).generation, f)
            = none)) := by
  have hfg : (iniSetItem ini "formula" "formula" w).generation
      = ini.generation + 1 :=
    iniSetItem_generation_other _ _ _ _ (by decide)
  refine ⟨⟨personAddLabel_generation A ini lb, fun h => ?_⟩,
          ⟨personSetMotivation_generation A ini w idy, fun h => ?_⟩,
          ⟨rfl, rfl⟩,
          fun sname kname h => iniSetItem_generation_other _ _ _ _ h,
          hfg, fun hinv => ?_⟩
  · exact calculateScore_hit _ _ _ _ _
      (by rw [personAddLabel_generation A ini lb]; exact h)
  · exact calculateScore_hit _ _ _ _ _
      (by rw [personSetMotivation_generation A ini w idy]; exact h)
  · rw [hfg]
    exact lookup_gen_bound_none _ _ _ _ hinv

/-- Witness for C2: a concrete two-applicant state in which a label edit on
one applicant keeps the other's cached score, and a formula write
invalidates it. -/
theorem c2_witness :
    calculateScore (fun _ _ _ => .ok 7)
      ⟨"b b", 1, [((1, 0, "f"), 42)], []⟩
      (personAddLabel ⟨"a a", 0, [], []⟩ ⟨0, false, []⟩ "VIP").2 "f"
      = (.ok 42, ⟨"b b", 1, [((1, 0, "f"), 42)], []⟩)
    ∧ (List.lookup
        ((1 : ℕ),
          (iniSetItem ⟨0, false, []⟩ "formula" "formula" (.str "y")).generation,
          "f")
        [(((1 : ℕ), (0 : ℕ), "f"), (42 : ℚ))] = none) := by
  have h := c2_cache_keying_and_invalidation (fun _ _ _ => .ok 7)
    ⟨"a a", 0, [], []⟩ ⟨"b b", 1, [((1, 0, "f"), 42)], []⟩ ⟨0, false, []⟩
    "f" "VIP" "0" "x" (.str "y") 42
  refine ⟨h.1.2 (by decide), ?_⟩
  exact h.2.2.2.2.2 (by
    intro k c hm
    simp only [List.mem_singleton, Prod.mk.injEq] at hm
    rw [hm.1])

/-! ## Claim C5 -/

/-- C5 counterexample: `programming` is both a configured rating category
(rating 1 for this applicant's answer) and a formula-scoped global
parameter (value 5); `FormulaProxy.__getitem__` returns the *global*
value 5, not the rating value 1, refuting the claimed resolution order in
which the global parameter store is consulted last. -/
theorem c5_counterexample :
    formulaProxyGet [] ⟨"mario rossi", 0, [], [("programming", .str "Competent/Proficient")]⟩
      ⟨0, false, [("formula", [("programming", .num (some 5))]),
                  ("programming_rating", [("competent", .num (some 1))])]⟩
      "programming" = .ok (.num (some 5))
    ∧ personGetRating ⟨"mario rossi", 0, [], [("programming", .str "Competent/Proficient")]⟩
        ⟨0, false, [("formula", [("programming", .num (some 5))]),
                    ("programming_rating", [("competent", .num (some 1))])]⟩
        "programming" = .ok (.num (some 1))
    ∧ Val.num (some 5) ≠ Val.num (some 1) := by
  exact ⟨rfl, rfl, by decide⟩

/-- C5 (amended): `FormulaProxy.__getitem__` resolves, in order: the
overrides, the special names `motivation` and `nan`, the formula-section
global parameter store, rating categories, and finally plain attributes.
Hence a name bound in the formula section resolves to the global value
even when it also names a rating category or attribute; and when no global
parameter shadows it, a rating category whose raw applicant value is the
empty string yields NaN rather than failing. -/
theorem c5_resolution_order (p : PersonC) (ini : IniM) (name : String)
    (hm : name ≠ "motivation") (hn : name ≠ "nan") :
    (∀ v, iniGetItem ini "formula" name = some v →
      formulaProxyGet [] p ini name = .ok v)
    ∧ (iniGetItem ini "formula" name = none →
       ∀ ratings, iniGetRatings ini name = some ratings →
       p.attrs.lookup name = some (.str "") →
       formulaProxyGet [] p ini name = .ok (.num none)) := by
  constructor
  · intro v hv
    simp [formulaProxyGet, hm, hn, hv]
  · intro hnone ratings hr hattr
    simp [formulaProxyGet, hm, hn, hnone, personGetRating, hr, hattr]

/-- Witness for C5: both branches of the amended resolution order at
concrete inputs. -/
theorem c5_witness :
    formulaProxyGet [] ⟨"a b", 0, [], []⟩
      ⟨0, false, [("formula", [("loc", .str "Palermo")])]⟩ "loc"
      = .ok (.str "Palermo")
    ∧ formulaProxyGet [] ⟨"a b", 0, [], [("python", .str "")]⟩
        ⟨0, false, [("python_rating", [("none", .num (some 0))])]⟩ "python"
        = .ok (.num none) := by
  constructor
  · exact (c5_resolution_order ⟨"a b", 0, [], []⟩
      ⟨0, false, [("formula", [("loc", .str "Palermo")])]⟩ "loc"
      (by decide) (by decide)).1 _ rfl
  · exact (c5_resolution_order ⟨"a b", 0, [], [("python", .str "")]⟩
      ⟨0, false, [("python_rating", [("none", .num (some 0))])]⟩ "python"
      (by decide) (by decide)).2 rfl _ rfl rfl

/-! ## Claim C6 -/

/-- C6 counterexample: with a formula evaluating to 1/3,
`Person.calculate_score` returns and caches the raw value 1/3, which is
*not* `round(1/3, 5)` — the rounding happens only in `rank_person`, not in
the value stored in the score cache. -/
theorem c6_counterexample :
    calculateScore (fun _ _ _ => .ok (1/3)) ⟨"a b", 0, [], []⟩ ⟨0, false, []⟩ "f"
      = (.ok (1/3), ⟨"a b", 0, [((0, 0, "f"), 1/3)], []⟩)
    ∧ pyRound5 (1/3) ≠ 1/3 :=
  ⟨rfl, by decide⟩

/-- C6 (amended): the score produced by `rank_person` is
`round(raw_evaluation_result, 5)` — the rounding happens before the range
assertion and before the value is stored on the person; but
`Person.calculate_score` returns and caches the raw evaluation result
without rounding. -/
theorem c6_rounding_behaviour :
    (∀ (p : PersonR) (formula : Expr) (location : String)
       (categories : List (String × List (String × ℚ)))
       (ms : List (Option ℚ)) (minsc maxsc : Option ℚ)
       (labels : List String) (applied : ℕ)
       (env : List (String × Val)) (v : Val),
      rankVars p location categories ms labels applied = .ok env →
      rankPerson p formula location categories ms minsc maxsc labels applied
        = .ok v →
      ∃ q, evalFormula env formula = .ok (.num q) ∧ v = .num (q.map pyRound5))
    ∧ (∀ (evalF : PersonC → IniM → String → Except PErr ℚ)
         (pc : PersonC) (ini : IniM) (f : String) (v₀ : ℚ),
        pc.cache.lookup (pc.gen, ini.generation, f) = none →
        evalF pc ini f = .ok v₀ →
        calculateScore evalF pc ini f
          = (.ok v₀,
             { pc with cache := alSet pc.cache (pc.gen, ini.generation, f) v₀ })) := by
  constructor
  · intro p formula location categories ms minsc maxsc labels applied env v h1 h2
    unfold rankPerson at h2
    rw [h1] at h2
    simp only [Bind.bind, Except.bind, Pure.pure, Except.pure] at h2
    split at h2
    · cases h2
    · rename_i score heq
      cases score with
      | num q =>
        simp only at h2
        split at h2
        · cases h2
          exact ⟨q, heq, rfl⟩
        · cases h2
      | str s => cases h2
      | strlist ls => cases h2
  · intro evalF pc ini f v₀ hmiss hok
    unfold calculateScore
    rw [hmiss, hok]

/-- Witness for C6 at a concrete constant formula: `rank_person` rounds
1/3 to 33333/100000. -/
theorem c6_witness :
    ∃ q, evalFormula
        [("born", Val.num (some 1980)), ("gender", Val.str "F"),
         ("nonmale", boolVal true), ("female", boolVal true),
         ("applied", Val.num (some 0)), ("nationality", Val.str "IT"),
         ("affiliation", Val.str "IT"), ("location", Val.str "Palermo"),
         ("motivation", Val.num none), ("email", Val.str "e"),
         ("labels", Val.strlist ["X"])]
        (.lit (.num (some (1/3)))) = .ok (.num q)
      ∧ Val.num (some (33333/100000)) = Val.num (q.map pyRound5) :=
  c6_rounding_behaviour.1 ⟨1980, "female", "IT", "IT", "e", []⟩
    (.lit (.num (some (1/3)))) "Palermo" [] [] none none ["X"] 0 _ _
    rfl (by decide)

/-! ## Claim C3 -/

/-- C3 (code bug): `find_min_max` hard-codes the birth-year domain
`born = (1900, 2012)`, while `Person.__post_init__` accepts every birth
year up to the current year.  For the formula `born` and a label-free
applicant born in 2020 — a perfectly valid person — range analysis returns
`(1900, 2012, {'born': 100.0})`, the computed score 2020 falls outside
`[min_score, max_score]`, and the assertion in `rank_person` fires
(`AssertionError`), contradicting the claimed invariant which the code
itself asserts. -/
theorem c3_assert_fires_for_valid_person :
    findMinMax (.var "born") "born" "Berlin" [("competent", 1)] [] [] [] []
        [0] [] []
      = .ok (.num (some 1900), .num (some 2012), [(.var "born", .num (some 100))])
    ∧ rankPerson ⟨2020, "female", "Italy", "Italy", "a@b.c",
          [("programming", "competent")]⟩
        (.var "born") "Berlin" [("programming", [("competent", 1)])]
        [some 0] (some 1900) (some 2012) [] 0
      = .error .assertionError
    ∧ personBornValid 2020 := by
  refine ⟨by decide, by decide, by decide, by decide⟩

/-! ## Claim C4 -/

/-- C4 counterexample: for the variable-free formula `1+1` the combination
set contains exactly one (empty) assignment — `itertools.product()` of no
iterables yields one empty tuple — so range analysis does *not* return
`(NaN, NaN, {})`; instead `min == max` makes the contribution step divide
by zero and `find_min_max` raises `ZeroDivisionError`. -/
theorem c4_counterexample :
    findMinMax (.add (.lit (.num (some 1))) (.lit (.num (some 1)))) "1+1"
        "Berlin" [] [] [] [] [] [0] [] []
      = .error .zeroDivisionError := by
  decide

/-! ## Claim C9 -/

/-- C9 (code bug): the country scan of `find_min_max` tests the pair
`(f"'{country}'", '"{country}"')`; the second test string is missing its
`f` prefix, so a country named in *double* quotes in the formula is not
detected and is absent from the synthetic nationality/affiliation domain,
while the same country in single quotes is included.  (The code's comment
says every country explicitly named in the formula must be in the
domain.) -/
theorem c9_double_quoted_country_missed :
    buildCountryDomain "nationality == \"Egypt\"" "Berlin" ["Egypt"]
      = ["NOWHERE", "NOWHERE2", "Berlin"]
    ∧ "Egypt" ∉ buildCountryDomain "nationality == \"Egypt\"" "Berlin" ["Egypt"]
    ∧ buildCountryDomain "nationality == 'Egypt'" "Berlin" ["Egypt"]
      = ["NOWHERE", "NOWHERE2", "Berlin", "Egypt"] := by
  refine ⟨by decide, by decide, by decide⟩

/-! ## Claim C1: lemmas about the ranking loop -/

theorem rankStep_out_highlander (ac : ℕ) (st : RankSt) (p : RPerson) :
    ((rankStep ac st p).2).highlander = ((rankStep ac st p).1).highlander := rfl

theorem rankStep_person (ac : ℕ) (st : RankSt) (p : RPerson) :
    ((rankStep ac st p).2).person = p := rfl

theorem rankStep_prevscore (ac : ℕ) (st : RankSt) (p : RPerson) :
    ((rankStep ac st p).1).prevscore = p.score := rfl

theorem rankStep_high_eq (ac : ℕ) (st : RankSt) (p : RPerson) :
    ((rankStep ac st p).1).highlander
      = (if st.highlander && pyNeB p.score st.prevscore
            && decide (st.count + 1 > ac)
         then false else st.highlander) := rfl

theorem rankStep_high_mono (ac : ℕ) (st : RankSt) (p : RPerson)
    (h : ((rankStep ac st p).1).highlander = true) : st.highlander = true := by
  rw [rankStep_high_eq] at h
  split at h
  · cases h
  · exact h

theorem rankStep_high_of_same_score (ac : ℕ) (st : RankSt) (p : RPerson)
    (h : pyNeB p.score st.prevscore = false) :
    ((rankStep ac st p).1).highlander = st.highlander := by
  rw [rankStep_high_eq, h]
  simp

theorem rankGo_mem_high (ac : ℕ) :
    ∀ (l : List RPerson) (st : RankSt), ∀ o ∈ rankGo ac st l,
      o.highlander = true → st.highlander = true := by
  intro l
  induction l with
  | nil => intro st o ho; simp [rankGo] at ho
  | cons p ps ih =>
    intro st o ho hh
    rw [rankGo] at ho
    rcases List.mem_cons.mp ho with rfl | hmem
    · exact rankStep_high_mono ac st p (by rw [← rankStep_out_highlander]; exact hh)
    · exact rankStep_high_mono ac st p (ih _ o hmem hh)

theorem rankGo_pairwise_high (ac : ℕ) :
    ∀ (l : List RPerson) (st : RankSt),
      (rankGo ac st l).Pairwise (fun a b => b.highlander = true → a.highlander = true) := by
  intro l
  induction l with
  | nil => intro st; simp [rankGo]
  | cons p ps ih =>
    intro st
    rw [rankGo]
    refine List.Pairwise.cons ?_ (ih _)
    intro b hb hbh
    rw [rankStep_out_highlander]
    exact rankGo_mem_high ac ps (rankStep ac st p).1 b hb hbh

theorem rankGo_map_person (ac : ℕ) :
    ∀ (l : List RPerson) (st : RankSt),
      (rankGo ac st l).map (fun o => o.person) = l := by
  intro l
  induction l with
  | nil => intro st; rfl
  | cons p ps ih =>
    intro st
    rw [rankGo, List.map_cons, rankStep_person, ih]

theorem rankGo_length (ac : ℕ) (l : List RPerson) (st : RankSt) :
    (rankGo ac st l).length = l.length := by
  have h := congrArg List.length (rankGo_map_person ac l st)
  rw [List.length_map] at h
  exact h

theorem rankGo_get_person (ac : ℕ) :
    ∀ (l : List RPerson) (st : RankSt) (i : ℕ)
      (h : i < (rankGo ac st l).length) (h' : i < l.length),
      ((rankGo ac st l).get ⟨i, h⟩).person = l.get ⟨i, h'⟩ := by
  intro l
  induction l with
  | nil => intro st i h h'; simp at h'
  | cons p ps ih =>
    intro st i h h'
    cases i with
    | zero =>
      show ((rankGo ac st (p :: ps)).get ⟨0, h⟩).person = p
      simp only [rankGo, List.get_cons_zero]
      exact rankStep_person ac st p
    | succ i' =>
      have h2 : i' < (rankGo ac (rankStep ac st p).1 ps).length := by
        simp only [rankGo, List.length_cons] at h
        omega
      have := ih (rankStep ac st p).1 i' h2 (by simpa using h')
      simp only [rankGo, List.get_cons_succ]
      exact this

theorem rankGo_tie (ac : ℕ) :
    ∀ (l : List RPerson) (st : RankSt) (i : ℕ)
      (h : i + 1 < (rankGo ac st l).length),
      pyNeB ((rankGo ac st l).get ⟨i + 1, h⟩).person.score
          ((rankGo ac st l).get ⟨i, Nat.lt_of_succ_lt h⟩).person.score = false →
      ((rankGo ac st l).get ⟨i + 1, h⟩).highlander
        = ((rankGo ac st l).get ⟨i, Nat.lt_of_succ_lt h⟩).highlander := by
  intro l
  induction l with
  | nil => intro st i h; simp [rankGo] at h
  | cons p ps ih =>
    intro st i h hne
    cases ps with
    | nil =>
      exfalso
      simp [rankGo] at h
    | cons q qs =>
      cases i with
      | zero =>
        have hq : pyNeB q.score p.score = false := hne
        show (rankStep ac (rankStep ac st p).1 q).2.highlander
            = (rankStep ac st p).2.highlander
        rw [rankStep_out_highlander, rankStep_out_highlander,
          rankStep_high_of_same_score]
        rw [rankStep_prevscore]
        exact hq
      | succ i' =>
        have h' : i' + 1 < (rankGo ac (rankStep ac st p).1 (q :: qs)).length := by
          have hl : (rankGo ac st (p :: q :: qs)).length
              = (rankGo ac (rankStep ac st p).1 (q :: qs)).length + 1 := rfl
          omega
        exact ih (rankStep ac st p).1 i' h' hne

theorem orderedPersons_sorted (ul : Bool) (ps : List RPerson) :
    (orderedPersons ul ps).Pairwise
      (fun a b => sortKey ul b ≤ sortKey ul a) := by
  haveI h1 : IsTotal RPerson (fun a b => sortKey ul b ≤ sortKey ul a) :=
    ⟨fun a b => le_total _ _⟩
  haveI h2 : IsTrans RPerson (fun a b => sortKey ul b ≤ sortKey ul a) :=
    ⟨fun _ _ _ hab hbc => le_trans hbc hab⟩
  exact List.sorted_insertionSort _ ps

/-! ## Claim C1: counterexample and theorem -/

/-- C1 counterexample.  First pool (`use_labels = true`,
`accept_count = 1`): applicant 1 has raw score 101; applicant 2 has raw
score 1 and label `SHORTLIST`, so the same *adjusted* score 101; applicant
3 has raw score 100 and the same lab as applicant 1.  The loop compares
*raw* scores, so applicant 2 — who shares the exact adjusted score with
the applicant at the cutoff boundary — is not a highlander; and applicant
3, whose lab already belongs to a highlander, is not a highlander either.
Second pool (`use_labels = false`): the second applicant of the same lab
is marked `samelab = true` yet `highlander = false`, so samelab does not
force inclusion. -/
theorem c1_counterexample :
    (((assignRankings true 1
        [⟨some 101, "X", []⟩, ⟨some 1, "Y", ["SHORTLIST"]⟩, ⟨some 100, "X", []⟩]).get
          ⟨0, by decide⟩).highlander = true
      ∧ ((assignRankings true 1
        [⟨some 101, "X", []⟩, ⟨some 1, "Y", ["SHORTLIST"]⟩, ⟨some 100, "X", []⟩]).get
          ⟨1, by decide⟩).highlander = false
      ∧ sortKey true ((assignRankings true 1
          [⟨some 101, "X", []⟩, ⟨some 1, "Y", ["SHORTLIST"]⟩, ⟨some 100, "X", []⟩]).get
            ⟨1, by decide⟩).person
        = sortKey true ((assignRankings true 1
          [⟨some 101, "X", []⟩, ⟨some 1, "Y", ["SHORTLIST"]⟩, ⟨some 100, "X", []⟩]).get
            ⟨0, by decide⟩).person
      ∧ ((assignRankings true 1
          [⟨some 101, "X", []⟩, ⟨some 1, "Y", ["SHORTLIST"]⟩, ⟨some 100, "X", []⟩]).get
            ⟨2, by decide⟩).person.lab
        = ((assignRankings true 1
          [⟨some 101, "X", []⟩, ⟨some 1, "Y", ["SHORTLIST"]⟩, ⟨some 100, "X", []⟩]).get
            ⟨0, by decide⟩).person.lab
      ∧ ((assignRankings true 1
          [⟨some 101, "X", []⟩, ⟨some 1, "Y", ["SHORTLIST"]⟩, ⟨some 100, "X", []⟩]).get
            ⟨2, by decide⟩).highlander = false)
    ∧ ( RankedOut.samelab ((assignRankings false 1
            [⟨some 2, "X", []⟩, ⟨some 1, "X", []⟩]).get ⟨1, by decide⟩) = true
      ∧ ((assignRankings false 1 [⟨some 2, "X", []⟩, ⟨some 1, "X", []⟩]).get
          ⟨0, by decide⟩).highlander = true
      ∧ ((assignRankings false 1 [⟨some 2, "X", []⟩, ⟨some 1, "X", []⟩]).get
          ⟨1, by decide⟩).highlander = false) := by
  decide

/-- C1 (amended): after `_assign_rankings` assigns the cutoff, (i) an
applicant adjacent to another with the same *raw* score (Python `!=` on
floats) has the same highlander flag, so runs sharing the exact raw score
with the last accepted applicant are never split; (ii) the highlanders
form a prefix of the output ordering; (iii) consequently no highlander has
a strictly lower adjusted sort key (label-adjusted score with NaN mapped
to the `__nan__` sentinel) than a non-highlander.  Samelab does *not*
force inclusion past the cutoff (see the counterexample); it only shares
the rank number. -/
theorem c1_cutoff_properties (ul : Bool) (ac : ℕ) (ps : List RPerson) :
    (∀ i (h : i + 1 < (assignRankings ul ac ps).length),
      pyNeB ((assignRankings ul ac ps).get ⟨i + 1, h⟩).person.score
          ((assignRankings ul ac ps).get ⟨i, Nat.lt_of_succ_lt h⟩).person.score
        = false →
      ((assignRankings ul ac ps).get ⟨i + 1, h⟩).highlander
        = ((assignRankings ul ac ps).get ⟨i, Nat.lt_of_succ_lt h⟩).highlander)
    ∧ (∀ i j (hi : i < (assignRankings ul ac ps).length)
        (hj : j < (assignRankings ul ac ps).length), i ≤ j →
        ((assignRankings ul ac ps).get ⟨j, hj⟩).highlander = true →
        ((assignRankings ul ac ps).get ⟨i, hi⟩).highlander = true)
    ∧ (∀ i j (hi : i < (assignRankings ul ac ps).length)
        (hj : j < (assignRankings ul ac ps).length),
        ((assignRankings ul ac ps).get ⟨i, hi⟩).highlander = true →
        ((assignRankings ul ac ps).get ⟨j, hj⟩).highlander = false →
        sortKey ul ((assignRankings ul ac ps).get ⟨j, hj⟩).person
          ≤ sortKey ul ((assignRankings ul ac ps).get ⟨i, hi⟩).person) := by
  have hpw := rankGo_pairwise_high ac (orderedPersons ul ps) initRankSt
  have hpw' := List.pairwise_iff_get.mp hpw
  have hprefix : ∀ i j (hi : i < (assignRankings ul ac ps).length)
      (hj : j < (assignRankings ul ac ps).length), i ≤ j →
      ((assignRankings ul ac ps).get ⟨j, hj⟩).highlander = true →
      ((assignRankings ul ac ps).get ⟨i, hi⟩).highlander = true := by
    intro i j hi hj hij hjh
    rcases Nat.lt_or_ge i j with hlt | hge
    · exact hpw' ⟨i, hi⟩ ⟨j, hj⟩ hlt hjh
    · have : i = j := le_antisymm hij hge
      subst this
      exact hjh
  refine ⟨fun i h => rankGo_tie ac (orderedPersons ul ps) initRankSt i h,
    hprefix, ?_⟩
  intro i j hi hj hih hjh
  have hij : i < j := by
    rcases Nat.lt_or_ge i j with hlt | hge
    · exact hlt
    · have := hprefix j i hj hi hge hih
      rw [this] at hjh
      cases hjh
  have hsorted := List.pairwise_iff_get.mp (orderedPersons_sorted ul ps)
  have hlen : (assignRankings ul ac ps).length = (orderedPersons ul ps).length :=
    rankGo_length ac (orderedPersons ul ps) initRankSt
  have hi' : i < (orderedPersons ul ps).length := hlen ▸ hi
  have hj' : j < (orderedPersons ul ps).length := hlen ▸ hj
  have hkey := hsorted ⟨i, hi'⟩ ⟨j, hj'⟩ hij
  show sortKey ul
      (((rankGo ac initRankSt (orderedPersons ul ps)).get ⟨j, hj⟩)).person
    ≤ sortKey ul
      (((rankGo ac initRankSt (orderedPersons ul ps)).get ⟨i, hi⟩)).person
  rw [rankGo_get_person ac (orderedPersons ul ps) initRankSt i hi hi',
    rankGo_get_person ac (orderedPersons ul ps) initRankSt j hj hj']
  exact hkey

/-- Witness for C1 at concrete pools: the tie conjunct and the prefix
conjunct on a two-way tie, and the key conjunct across an actual cutoff. -/
theorem c1_witness :
    ((assignRankings false 2 [⟨some 3, "X", []⟩, ⟨some 3, "Y", []⟩]).get
        ⟨1, by decide⟩).highlander
      = ((assignRankings false 2 [⟨some 3, "X", []⟩, ⟨some 3, "Y", []⟩]).get
        ⟨0, by decide⟩).highlander
    ∧ ((assignRankings false 2 [⟨some 3, "X", []⟩, ⟨some 3, "Y", []⟩]).get
        ⟨0, by decide⟩).highlander = true
    ∧ sortKey false ((assignRankings false 1
          [⟨some 3, "X", []⟩, ⟨some 1, "Y", []⟩]).get ⟨1, by decide⟩).person
        ≤ sortKey false ((assignRankings false 1
          [⟨some 3, "X", []⟩, ⟨some 1, "Y", []⟩]).get ⟨0, by decide⟩).person := by
  have h := c1_cutoff_properties false 2 [⟨some 3, "X", []⟩, ⟨some 3, "Y", []⟩]
  have h2 := c1_cutoff_properties false 1 [⟨some 3, "X", []⟩, ⟨some 1, "Y", []⟩]
  refine ⟨h.1 0 (by decide) (by decide), ?_, ?_⟩
  · exact h.2.1 0 1 (by decide) (by decide) (by decide) (by decide)
  · exact h2.2.2 0 1 (by decide) (by decide) (by decide) (by decide)

/-! ## Claim C7: lemmas about the normalization chains -/

theorem takeWhileOf_eq_self (p : Char → Bool) :
    ∀ l : List Char, (∀ x ∈ l, p x = true) → l.takeWhile p = l := by
  intro l
  induction l with
  | nil => intro _; rfl
  | cons a t ih =>
    intro h
    rw [List.takeWhile_cons, h a (List.mem_cons_self _ _)]
    rw [if_pos rfl, ih (fun x hx => h x (List.mem_cons_of_mem _ hx))]

theorem mem_takeWhile_pred (p : Char → Bool) :
    ∀ (l : List Char) (x : Char), x ∈ l.takeWhile p → p x = true := by
  intro l
  induction l with
  | nil => intro x hx; cases hx
  | cons a t ih =>
    intro x hx
    rw [List.takeWhile_cons] at hx
    by_cases ha : p a
    · rw [if_pos ha] at hx
      rcases List.mem_cons.mp hx with rfl | hx'
      · exact ha
      · exact ih x hx'
    · rw [if_neg ha] at hx
      cases hx

theorem mem_of_mem_takeWhile (p : Char → Bool) :
    ∀ (l : List Char) (x : Char), x ∈ l.takeWhile p → x ∈ l := by
  intro l
  induction l with
  | nil => intro x hx; cases hx
  | cons a t ih =>
    intro x hx
    rw [List.takeWhile_cons] at hx
    by_cases ha : p a
    · rw [if_pos ha] at hx
      rcases List.mem_cons.mp hx with rfl | hx'
      · exact List.mem_cons_self _ _
      · exact List.mem_cons_of_mem _ (ih x hx')
    · rw [if_neg ha] at hx
      cases hx

theorem not_mem_takeUntil (c : Char) (l : List Char) : c ∉ takeUntil c l := by
  intro h
  have := mem_takeWhile_pred _ l c h
  simp at this

theorem mem_takeUntil (c x : Char) (l : List Char) (h : x ∈ takeUntil c l) :
    x ∈ l :=
  mem_of_mem_takeWhile _ l x h

theorem takeUntil_eq_self (c : Char) (l : List Char) (h : ∀ x ∈ l, x ≠ c) :
    takeUntil c l = l :=
  takeWhileOf_eq_self _ l (fun x hx => by simpa using h x hx)

theorem dropWhileOf_idem (p : Char → Bool) :
    ∀ l : List Char, (l.dropWhile p).dropWhile p = l.dropWhile p := by
  intro l
  induction l with
  | nil => rfl
  | cons a t ih =>
    by_cases h : p a
    · rw [List.dropWhile_cons, if_pos h, ih]
    · rw [List.dropWhile_cons, if_neg h, List.dropWhile_cons, if_neg h]

theorem trimL_idem (l : List Char) : trimL (trimL l) = trimL l :=
  dropWhileOf_idem pyIsSpaceC l

theorem mem_trimL (x : Char) (l : List Char) (h : x ∈ trimL l) : x ∈ l :=
  (List.dropWhile_sublist _).subset h

theorem mem_trimR : ∀ (l : List Char) (x : Char), x ∈ trimR l → x ∈ l := by
  intro l
  induction l with
  | nil => intro x hx; cases hx
  | cons a t ih =>
    intro x hx
    rw [trimR] at hx
    cases htr : trimR t with
    | nil =>
      rw [htr] at hx
      by_cases ha : pyIsSpaceC a
      · rw [if_pos ha] at hx
        cases hx
      · rw [if_neg ha] at hx
        rcases List.mem_cons.mp hx with rfl | hx'
        · exact List.mem_cons_self _ _
        · cases hx'
    | cons b u =>
      rw [htr] at hx
      rcases List.mem_cons.mp hx with rfl | hx'
      · exact List.mem_cons_self _ _
      · exact List.mem_cons_of_mem _ (ih x (htr ▸ hx'))

theorem mem_stripChars (x : Char) (l : List Char) (h : x ∈ stripChars l) :
    x ∈ l :=
  mem_trimL x l (mem_trimR (trimL l) x h)

theorem trimR_eq_nil_iff : ∀ l : List Char,
    (trimR l = [] ↔ ∀ c ∈ l, pyIsSpaceC c = true) := by
  intro l
  induction l with
  | nil => simp [trimR]
  | cons a t ih =>
    rw [trimR]
    cases htr : trimR t with
    | nil =>
      have ht : ∀ c ∈ t, pyIsSpaceC c = true := ih.mp htr
      by_cases ha : pyIsSpaceC a
      · simp only [if_pos ha]
        constructor
        · intro _ c hc
          rcases List.mem_cons.mp hc with rfl | hc'
          · exact ha
          · exact ht c hc'
        · intro _; trivial
      · simp only [if_neg ha]
        constructor
        · intro h; cases h
        · intro hall
          exact absurd (hall a (List.mem_cons_self _ _)) ha
    | cons b u =>
      constructor
      · intro h; cases h
      · intro hall
        have : trimR t = [] := ih.mpr (fun c hc => hall c (List.mem_cons_of_mem _ hc))
        rw [this] at htr
        cases htr

theorem trimR_idem : ∀ l : List Char, trimR (trimR l) = trimR l := by
  intro l
  induction l with
  | nil => rfl
  | cons a t ih =>
    rw [trimR]
    cases htr : trimR t with
    | nil =>
      by_cases ha : pyIsSpaceC a
      · rw [if_pos ha]; rfl
      · rw [if_neg ha]
        rw [trimR]
        simp [trimR, ha]
    | cons b u =>
      rw [htr] at ih
      rw [trimR, ih]

theorem trimL_trimR_comm : ∀ l : List Char, trimL (trimR l) = trimR (trimL l) := by
  intro l
  induction l with
  | nil => rfl
  | cons a t ih =>
    by_cases ha : pyIsSpaceC a
    · have hL : trimL (a :: t) = trimL t := by
        rw [trimL, List.dropWhile_cons, if_pos ha]; rfl
      cases htr : trimR t with
      | nil =>
        have h1 : trimR (a :: t) = [] := by
          rw [trimR, htr, if_pos ha]
        rw [h1, hL]
        have hall := (trimR_eq_nil_iff t).mp htr
        have h2 : trimL t = [] := by
          rw [trimL]
          exact List.dropWhile_eq_nil_iff.mpr (fun x hx => by simpa using hall x hx)
        rw [h2]
        rfl
      | cons b u =>
        have h1 : trimR (a :: t) = a :: b :: u := by
          rw [trimR, htr]
        rw [h1, hL]
        have h3 : trimL (a :: b :: u) = trimL (b :: u) := by
          rw [trimL, List.dropWhile_cons, if_pos ha]; rfl
        rw [h3, ← htr]
        exact ih
    · have hL : trimL (a :: t) = a :: t := by
        rw [trimL, List.dropWhile_cons, if_neg ha]
      cases htr : trimR t with
      | nil =>
        have h1 : trimR (a :: t) = [a] := by
          rw [trimR, htr, if_neg ha]
        rw [h1, hL, trimR, htr, if_neg ha]
        rw [trimL, List.dropWhile_cons, if_neg ha]
      | cons b u =>
        have h1 : trimR (a :: t) = a :: b :: u := by
          rw [trimR, htr]
        rw [h1, hL, trimR, htr]
        rw [trimL, List.dropWhile_cons, if_neg ha]

theorem stripChars_idem (l : List Char) :
    stripChars (stripChars l) = stripChars l := by
  show trimR (trimL (trimR (trimL l))) = trimR (trimL l)
  rw [trimL_trimR_comm (trimL l), trimL_idem, trimR_idem]

theorem lookupOf_mem {α β : Type} [BEq α] [LawfulBEq α] :
    ∀ (l : List (α × β)) (k : α) (v : β), l.lookup k = some v → (k, v) ∈ l := by
  intro l
  induction l with
  | nil => intro k v h; cases h
  | cons e rest ih =>
    intro k v h
    rw [List.lookup] at h
    cases hbe : (k == e.1) with
    | true =>
      rw [hbe] at h
      cases h
      have hke : k = e.1 := eq_of_beq hbe
      subst hke
      exact List.mem_cons_self _ _
    | false =>
      rw [hbe] at h
      exact List.mem_cons_of_mem _ (ih k v h)

theorem upperLower_facts :
    ∀ p ∈ upperLower, upperLower.lookup p.2 = none
      ∧ pyIsSpaceC p.1 = false ∧ pyIsSpaceC p.2 = false
      ∧ pyDelim p.1 = false ∧ pyDelim p.2 = false := by
  decide

theorem pyLower_idem (c : Char) : pyLower (pyLower c) = pyLower c := by
  unfold pyLower
  cases h : upperLower.lookup c with
  | none => rw [Option.getD_none, h, Option.getD_none]
  | some d =>
    rw [Option.getD_some]
    have hm := lookupOf_mem upperLower c d h
    rw [(upperLower_facts (c, d) hm).1, Option.getD_none]

theorem pyLower_ws (c : Char) : pyIsSpaceC (pyLower c) = pyIsSpaceC c := by
  unfold pyLower
  cases h : upperLower.lookup c with
  | none => rw [Option.getD_none]
  | some d =>
    rw [Option.getD_some]
    have hm := lookupOf_mem upperLower c d h
    rw [(upperLower_facts (c, d) hm).2.2.1, (upperLower_facts (c, d) hm).2.1]

theorem pyLower_delim (c : Char) : pyDelim (pyLower c) = pyDelim c := by
  unfold pyLower
  cases h : upperLower.lookup c with
  | none => rw [Option.getD_none]
  | some d =>
    rw [Option.getD_some]
    have hm := lookupOf_mem upperLower c d h
    rw [(upperLower_facts (c, d) hm).2.2.2.2, (upperLower_facts (c, d) hm).2.2.2.1]

theorem pyLower_of_ws (c : Char) (h : pyIsSpaceC c = true) : pyLower c = c := by
  unfold pyLower
  cases hc : upperLower.lookup c with
  | none => rw [Option.getD_none]
  | some d =>
    exfalso
    have hm := lookupOf_mem upperLower c d hc
    rw [(upperLower_facts (c, d) hm).2.1] at h
    cases h

theorem trimR_map_lower : ∀ l : List Char,
    trimR (l.map pyLower) = (trimR l).map pyLower := by
  intro l
  induction l with
  | nil => rfl
  | cons a t ih =>
    rw [List.map_cons, trimR, trimR, ih]
    cases htr : trimR t with
    | nil =>
      rw [List.map_nil, pyLower_ws]
      by_cases ha : pyIsSpaceC a
      · rw [if_pos ha, if_pos ha]; rfl
      · rw [if_neg ha, if_neg ha]; rfl
    | cons b u => rw [List.map_cons]; rfl

theorem map_lower_idem (l : List Char) :
    (l.map pyLower).map pyLower = l.map pyLower := by
  rw [List.map_map]
  exact List.map_congr_left (fun c _ => pyLower_idem c)

/-! ## Claim C7: idempotence -/

theorem graderNorm_no_delims (x : List Char) :
    ('(' ∉ graderNorm x) ∧ ('/' ∉ graderNorm x) ∧ (',' ∉ graderNorm x) := by
  refine ⟨?_, ?_, ?_⟩
  · intro h
    exact not_mem_takeUntil '(' x
      (mem_takeUntil '/' '(' _
        (mem_stripChars _ _ (mem_takeUntil ',' '(' _ (mem_stripChars _ _ h))))
  · intro h
    exact not_mem_takeUntil '/' (takeUntil '(' x)
      (mem_stripChars _ _ (mem_takeUntil ',' '/' _ (mem_stripChars _ _ h)))
  · intro h
    exact not_mem_takeUntil ','
      (stripChars (takeUntil '/' (takeUntil '(' x)))
      (mem_stripChars _ _ h)

theorem graderNorm_idem (x : List Char) :
    graderNorm (graderNorm x) = graderNorm x := by
  obtain ⟨h1, h2, h3⟩ := graderNorm_no_delims x
  show stripChars (takeUntil ','
      (stripChars (takeUntil '/' (takeUntil '(' (graderNorm x))))) = graderNorm x
  rw [takeUntil_eq_self '(' _ (fun y hy hc => h1 (hc ▸ hy)),
    takeUntil_eq_self '/' _ (fun y hy hc => h2 (hc ▸ hy))]
  have hs : stripChars (graderNorm x) = graderNorm x := stripChars_idem _
  rw [hs, takeUntil_eq_self ',' _ (fun y hy hc => h3 (hc ▸ hy)), hs]

theorem personNormalize_idem :
    ∀ (x y : List Char), personNormalize x = some y →
      personNormalize y = some y := by
  intro x y h
  cases x with
  | nil => cases h
  | cons a t =>
    simp only [personNormalize] at h
    by_cases hg : trimR (a :: t.takeWhile (fun c => !pyDelim c)) = []
    · rw [if_pos hg] at h
      have hy : y = [pyLower a] := by
        cases h; rfl
      have hws : pyIsSpaceC a = true :=
        (trimR_eq_nil_iff _).mp hg a (List.mem_cons_self _ _)
      have hla : pyLower a = a := pyLower_of_ws a hws
      rw [hla] at hy
      subst hy
      simp only [personNormalize, List.takeWhile_nil]
      have : trimR [a] = [] := by
        rw [trimR]
        show (if pyIsSpaceC a = true then [] else [a]) = []
        rw [if_pos hws]
      rw [if_pos this]
      simp [hla]
    · rw [if_neg hg] at h
      have hy : y = (trimR (a :: t.takeWhile (fun c => !pyDelim c))).map pyLower := by
        cases h; rfl
      rcases htr : trimR (t.takeWhile (fun c => !pyDelim c)) with _ | ⟨b, u⟩
      · -- trimR of the tail is empty: trimR pre = [a] (a is not whitespace)
        have hnw : pyIsSpaceC a = false := by
          by_contra hcon
          apply hg
          rw [trimR, htr, if_pos (by simpa using hcon)]
        have hpre : trimR (a :: t.takeWhile (fun c => !pyDelim c)) = [a] := by
          rw [trimR, htr, if_neg (by simp [hnw])]
        rw [hpre] at hy
        subst hy
        simp only [List.map_cons, List.map_nil]
        simp only [personNormalize, List.takeWhile_nil]
        have h2 : trimR [pyLower a] = [pyLower a] := by
          rw [trimR]
          show (if pyIsSpaceC (pyLower a) = true then [] else [pyLower a])
            = [pyLower a]
          rw [pyLower_ws, if_neg (by simp [hnw])]
        rw [h2]
        simp [pyLower_idem]
      · -- trimR pre = a :: b :: u
        have hpre : trimR (a :: t.takeWhile (fun c => !pyDelim c)) = a :: b :: u := by
          rw [trimR, htr]
        rw [hpre] at hy
        have hidem : trimR (a :: b :: u) = a :: b :: u := by
          have hh := trimR_idem (a :: t.takeWhile (fun c => !pyDelim c))
          rw [hpre] at hh
          exact hh
        subst hy
        rw [List.map_cons]
        simp only [personNormalize]
        have hbu : ∀ z ∈ (b :: u).map pyLower, (!pyDelim z) = true := by
          intro z hz
          rcases List.mem_map.mp hz with ⟨z0, hz0, rfl⟩
          have hzt : z0 ∈ t.takeWhile (fun c => !pyDelim c) :=
            mem_trimR _ z0 (htr ▸ hz0)
          have := mem_takeWhile_pred _ t z0 hzt
          rw [Bool.not_eq_true'] at this ⊢
          rw [pyLower_delim]
          exact this
        rw [takeWhileOf_eq_self _ _ hbu]
        have hcast : pyLower a :: (b :: u).map pyLower = (a :: b :: u).map pyLower := by
          simp
        have htry : trimR (pyLower a :: (b :: u).map pyLower)
            = pyLower a :: (b :: u).map pyLower := by
          rw [hcast, trimR_map_lower, hidem]
        rw [htry, if_neg (by simp)]
        rw [hcast, map_lower_idem]

/-- C7: the rating-key normalization used by rating lookup is idempotent:
`normalize(normalize(x)) = normalize(x)` for every key.  This holds for
both normalizations in the code: the partition/strip chain of
`grader.py:get_rating` (`graderNorm`, which truncates at `(`, `/`, `,` and
strips whitespace but does not lower-case) and the regex-plus-`lower`
normalization of `person.py:Person.get_rating` (`personNormalize`, partial
on the empty string, where the regex fails). -/
theorem c7_rating_normalization_idempotent (x : List Char) :
    graderNorm (graderNorm x) = graderNorm x
    ∧ (∀ y, personNormalize x = some y → personNormalize y = some y) :=
  ⟨graderNorm_idem x, fun y h => personNormalize_idem x y h⟩

/-- Witness for C7 on the example key from the code's docstring. -/
theorem c7_witness :
    personNormalize "Minor Contributions (bug reports, ...)".toList
      = some "minor contributions".toList
    ∧ personNormalize "minor contributions".toList
      = some "minor contributions".toList := by
  have h :=
    (c7_rating_normalization_idempotent
      "Minor Contributions (bug reports, ...)".toList).2
  exact ⟨by decide, h _ (by decide)⟩

/-! ## Claims C4 and C8: lemmas about `exMapM`, `termsOf` and the
min/max folds -/

theorem exMapM_ok_nil {α β : Type} (f : α → Except PErr β) :
    ∀ l : List α, exMapM f l = .ok [] → l = [] := by
  intro l h
  cases l with
  | nil => rfl
  | cons a t =>
    rw [exMapM] at h
    cases hf : f a with
    | error e => rw [hf] at h; cases h
    | ok b =>
      rw [hf] at h
      cases ht : exMapM f t with
      | error e => rw [ht] at h; cases h
      | ok bs => rw [ht] at h; cases h

theorem exMapM_ok_mem {α β : Type} (f : α → Except PErr β) :
    ∀ (l : List α) (r : List β), exMapM f l = .ok r →
      ∀ b ∈ r, ∃ a ∈ l, f a = .ok b := by
  intro l
  induction l with
  | nil =>
    intro r h b hb
    cases h
    cases hb
  | cons a t ih =>
    intro r h b hb
    rw [exMapM] at h
    cases hf : f a with
    | error e => rw [hf] at h; cases h
    | ok b0 =>
      rw [hf] at h
      cases ht : exMapM f t with
      | error e => rw [ht] at h; cases h
      | ok bs =>
        rw [ht] at h
        cases h
        rcases List.mem_cons.mp hb with rfl | hb'
        · exact ⟨a, List.mem_cons_self _ _, hf⟩
        · rcases ih bs ht b hb' with ⟨a', ha', hfa'⟩
          exact ⟨a', List.mem_cons_of_mem _ ha', hfa'⟩

theorem exMapM_cons_ok {α β : Type} (f : α → Except PErr β) (a : α)
    (t : List α) (r : List β) (h : exMapM f (a :: t) = .ok r) :
    ∃ b bs, f a = .ok b ∧ exMapM f t = .ok bs ∧ r = b :: bs := by
  rw [exMapM] at h
  cases hf : f a with
  | error e => rw [hf] at h; cases h
  | ok b =>
    rw [hf] at h
    cases ht : exMapM f t with
    | error e => rw [ht] at h; cases h
    | ok bs =>
      rw [ht] at h
      cases h
      exact ⟨b, bs, rfl, rfl, rfl⟩

theorem termsOf_ne_nil : ∀ e : Expr, termsOf e ≠ [] := by
  intro e
  cases e with
  | add a b =>
    rw [termsOf]
    intro h
    rcases List.append_eq_nil.mp h with ⟨h1, _⟩
    exact termsOf_ne_nil a h1
  | lit v => simp [termsOf]
  | var n => simp [termsOf]
  | sub a b => simp [termsOf]
  | mul a b => simp [termsOf]
  | div a b => simp [termsOf]
  | eq a b => simp [termsOf]
  | ne a b => simp [termsOf]
  | lt a b => simp [termsOf]
  | le a b => simp [termsOf]
  | gt a b => simp [termsOf]
  | ge a b => simp [termsOf]
  | band a b => simp [termsOf]
  | bor a b => simp [termsOf]
  | bnot a => simp [termsOf]
  | mem a b => simp [termsOf]

/-! ## Claim C4: amended theorem -/

/-- C4 (amended): `find_min_max` returns `(NaN, NaN, {})` exactly when the
combination set is empty; in particular a referenced rating table that is
empty makes the combination set empty and yields `(NaN, NaN, {})`, but a
formula with *no* free variables yields exactly one empty combination
(`itertools.product()` of no iterables), so analysis proceeds and never
returns `(NaN, NaN, {})` for it (with `max = min`, the contribution step
instead divides by zero). -/
theorem c4_nan_result_iff_empty_combinations (formula : Expr)
    (ftext location : String)
    (pr osr pyr vr ur : List (String × ℚ)) (a0 : ℕ) (arest : List ℕ)
    (allN allA : List String) :
    (fmCombos (findNames formula)
        (fmChoicesOf ftext location pr osr pyr vr ur a0 arest allN allA)
        = .ok [] →
      findMinMax formula ftext location pr osr pyr vr ur (a0 :: arest) allN allA
        = .ok (.num none, .num none, []))
    ∧ (findMinMax formula ftext location pr osr pyr vr ur (a0 :: arest) allN allA
        = .ok (.num none, .num none, []) →
      fmCombos (findNames formula)
        (fmChoicesOf ftext location pr osr pyr vr ur a0 arest allN allA)
        = .ok [])
    ∧ (findNames formula = [] →
      findMinMax formula ftext location pr osr pyr vr ur (a0 :: arest) allN allA
        ≠ .ok (.num none, .num none, []))
    ∧ (findNames formula = ["programming"] → pr = [] →
      findMinMax formula ftext location pr osr pyr vr ur (a0 :: arest) allN allA
        = .ok (.num none, .num none, [])) := by
  have hresult : ∀ (h : _), findMinMax formula ftext location pr osr pyr vr ur
      (a0 :: arest) allN allA
      = .ok (.num none, .num none, []) →
      fmCombos (findNames formula)
        (fmChoicesOf ftext location pr osr pyr vr ur a0 arest allN allA) = h →
      h = .ok [] := by
    intro h hfm hcombos
    rw [findMinMax, hcombos] at hfm
    cases h with
    | error e => cases hfm
    | ok combos =>
      dsimp only at hfm
      cases hev : exMapM (fun combo => evalFormula combo formula) combos with
      | error e => rw [hev] at hfm; dsimp only at hfm; cases hfm
      | ok values =>
        rw [hev] at hfm
        dsimp only at hfm
        by_cases hv : values = []
        · rw [hv] at hev
          rw [exMapM_ok_nil _ combos hev]
        · exfalso
          rw [if_neg hv] at hfm
          cases hmin : pyMinList values with
          | error e => rw [hmin] at hfm; dsimp only at hfm; cases hfm
          | ok minsc =>
            rw [hmin] at hfm
            dsimp only at hfm
            cases hmax : pyMaxList values with
            | error e => rw [hmax] at hfm; dsimp only at hfm; cases hfm
            | ok maxsc =>
              rw [hmax] at hfm
              dsimp only at hfm
              cases hit : exMapM (contribOf combos minsc maxsc) (termsOf formula) with
              | error e => rw [hit] at hfm; dsimp only at hfm; cases hfm
              | ok items =>
                rw [hit] at hfm
                dsimp only at hfm
                cases hfm
                exact termsOf_ne_nil formula (exMapM_ok_nil _ _ hit)
  refine ⟨?_, ?_, ?_, ?_⟩
  · intro hcombos
    rw [findMinMax, hcombos]
    rfl
  · intro hfm
    exact hresult _ hfm rfl
  · intro hnames hfm
    have hcombos : fmCombos (findNames formula)
        (fmChoicesOf ftext location pr osr pyr vr ur a0 arest allN allA)
        = .ok [[]] := by
      rw [hnames]
      rfl
    have := hresult _ hfm hcombos
    cases this
  · intro hnames hpr
    have hcombos : fmCombos (findNames formula)
        (fmChoicesOf ftext location pr osr pyr vr ur a0 arest allN allA)
        = .ok [] := by
      rw [hnames, hpr]
      rfl
    rw [findMinMax, hcombos]
    rfl

/-- Witness for C4: a formula over an empty `programming` rating table
yields the NaN signal, and the converse direction recovers the empty
combination set from it. -/
theorem c4_witness :
    findMinMax (.var "programming") "programming" "Berlin" [] [] [] [] []
        [0] [] [] = .ok (.num none, .num none, [])
    ∧ fmCombos (findNames (.var "programming"))
        (fmChoicesOf "programming" "Berlin" [] [] [] [] [] 0 [] [] [])
        = .ok [] := by
  have h := c4_nan_result_iff_empty_combinations (.var "programming")
    "programming" "Berlin" [] [] [] [] [] 0 [] [] []
  have h1 := h.2.2.2 (by decide) rfl
  exact ⟨h1, h.2.1 h1⟩

/-! ## Claim C8: NaN-freedom of evaluation over the synthetic domains -/

/-- A value that is not the float NaN. -/
def nanFreeV (v : Val) : Bool :=
  match v with
  | .num o => o.isSome
  | _ => true

/-- A formula containing no NaN literal (`float('nan')` is not expressible
in the restricted formula language, so every formula the code evaluates is
NaN-free; the property is needed because the synthetic domains contain no
NaN either). -/
def nanFreeE : Expr → Bool
  | .lit v => nanFreeV v
  | .var _ => true
  | .add a b | .sub a b | .mul a b | .div a b
  | .eq a b | .ne a b | .lt a b | .le a b | .gt a b | .ge a b
  | .band a b | .bor a b | .mem a b => nanFreeE a && nanFreeE b
  | .bnot a => nanFreeE a

theorem exBind_ok {α β : Type} (x : Except PErr α) (f : α → Except PErr β)
    (b : β) : (x >>= f) = .ok b ↔ ∃ a, x = .ok a ∧ f a = .ok b := by
  cases x with
  | error e => simp [Bind.bind, Except.bind]
  | ok a => simp [Bind.bind, Except.bind]

theorem boolVal_nanFree (b : Bool) : nanFreeV (boolVal b) = true := rfl

theorem pyAdd_nanFree (x y v : Val) (hx : nanFreeV x = true)
    (hy : nanFreeV y = true) (h : pyAdd x y = .ok v) : nanFreeV v = true := by
  cases x <;> cases y <;> simp_all [pyAdd, nanFreeV, liftNum2]
  · rename_i ox oy
    rcases Option.isSome_iff_exists.mp hx with ⟨a, rfl⟩
    rcases Option.isSome_iff_exists.mp hy with ⟨b2, rfl⟩
    simp_all [liftNum2]
    simp [← h]
  · rw [← h]

theorem pySub_nanFree (x y v : Val) (hx : nanFreeV x = true)
    (hy : nanFreeV y = true) (h : pySub x y = .ok v) : nanFreeV v = true := by
  cases x <;> cases y <;> simp_all [pySub, nanFreeV, liftNum2]
  rename_i ox oy
  rcases Option.isSome_iff_exists.mp hx with ⟨a, rfl⟩
  rcases Option.isSome_iff_exists.mp hy with ⟨b2, rfl⟩
  simp_all [liftNum2]
  simp [← h]

theorem pyMul_nanFree (x y v : Val) (hx : nanFreeV x = true)
    (hy : nanFreeV y = true) (h : pyMul x y = .ok v) : nanFreeV v = true := by
  cases x <;> cases y <;> simp_all [pyMul, nanFreeV, liftNum2]
  rename_i ox oy
  rcases Option.isSome_iff_exists.mp hx with ⟨a, rfl⟩
  rcases Option.isSome_iff_exists.mp hy with ⟨b2, rfl⟩
  simp_all [liftNum2]
  simp [← h]

theorem pyDiv_nanFree (x y v : Val) (hx : nanFreeV x = true)
    (hy : nanFreeV y = true) (h : pyDiv x y = .ok v) : nanFreeV v = true := by
  cases x <;> cases y <;> simp_all [pyDiv, nanFreeV]
  rename_i ox oy
  rcases Option.isSome_iff_exists.mp hx with ⟨a, rfl⟩
  rcases Option.isSome_iff_exists.mp hy with ⟨b2, rfl⟩
  by_cases hb : b2 = 0
  · simp [hb] at h
  · simp [hb] at h
    simp [← h, Option.map]

theorem evalE_nanFree (env : List (String × Val))
    (henv : ∀ p ∈ env, nanFreeV p.2 = true) :
    ∀ t : Expr, nanFreeE t = true →
      ∀ v : Val, evalE env t = .ok v → nanFreeV v = true := by
  intro t
  induction t with
  | lit w =>
    intro ht v h
    rw [evalE] at h
    cases h
    exact ht
  | var n =>
    intro _ v h
    rw [evalE] at h
    cases hl : env.lookup n with
    | none => rw [hl] at h; cases h
    | some w =>
      rw [hl] at h
      injection h with hwv
      subst hwv
      exact henv (n, w) (lookupOf_mem env n w hl)
  | add a b iha ihb =>
    intro ht v h
    rw [nanFreeE, Bool.and_eq_true] at ht
    rw [evalE] at h
    rcases (exBind_ok _ _ _).mp h with ⟨x, hx, h2⟩
    rcases (exBind_ok _ _ _).mp h2 with ⟨y, hy, h3⟩
    exact pyAdd_nanFree x y v (iha ht.1 x hx) (ihb ht.2 y hy) h3
  | sub a b iha ihb =>
    intro ht v h
    rw [nanFreeE, Bool.and_eq_true] at ht
    rw [evalE] at h
    rcases (exBind_ok _ _ _).mp h with ⟨x, hx, h2⟩
    rcases (exBind_ok _ _ _).mp h2 with ⟨y, hy, h3⟩
    exact pySub_nanFree x y v (iha ht.1 x hx) (ihb ht.2 y hy) h3
  | mul a b iha ihb =>
    intro ht v h
    rw [nanFreeE, Bool.and_eq_true] at ht
    rw [evalE] at h
    rcases (exBind_ok _ _ _).mp h with ⟨x, hx, h2⟩
    rcases (exBind_ok _ _ _).mp h2 with ⟨y, hy, h3⟩
    exact pyMul_nanFree x y v (iha ht.1 x hx) (ihb ht.2 y hy) h3
  | div a b iha ihb =>
    intro ht v h
    rw [nanFreeE, Bool.and_eq_true] at ht
    rw [evalE] at h
    rcases (exBind_ok _ _ _).mp h with ⟨x, hx, h2⟩
    rcases (exBind_ok _ _ _).mp h2 with ⟨y, hy, h3⟩
    exact pyDiv_nanFree x y v (iha ht.1 x hx) (ihb ht.2 y hy) h3
  | eq a b iha ihb =>
    intro _ v h
    rw [evalE] at h
    rcases (exBind_ok _ _ _).mp h with ⟨x, _, h2⟩
    rcases (exBind_ok _ _ _).mp h2 with ⟨y, _, h3⟩
    cases h3
    exact boolVal_nanFree _
  | ne a b iha ihb =>
    intro _ v h
    rw [evalE] at h
    rcases (exBind_ok _ _ _).mp h with ⟨x, _, h2⟩
    rcases (exBind_ok _ _ _).mp h2 with ⟨y, _, h3⟩
    cases h3
    exact boolVal_nanFree _
  | lt a b iha ihb =>
    intro _ v h
    rw [evalE] at h
    rcases (exBind_ok _ _ _).mp h with ⟨x, _, h2⟩
    rcases (exBind_ok _ _ _).mp h2 with ⟨y, _, h3⟩
    rcases (exBind_ok _ _ _).mp h3 with ⟨c, _, h4⟩
    cases h4
    exact boolVal_nanFree _
  | le a b iha ihb =>
    intro _ v h
    rw [evalE] at h
    rcases (exBind_ok _ _ _).mp h with ⟨x, _, h2⟩
    rcases (exBind_ok _ _ _).mp h2 with ⟨y, _, h3⟩
    rcases (exBind_ok _ _ _).mp h3 with ⟨c, _, h4⟩
    cases h4
    exact boolVal_nanFree _
  | gt a b iha ihb =>
    intro _ v h
    rw [evalE] at h
    rcases (exBind_ok _ _ _).mp h with ⟨x, _, h2⟩
    rcases (exBind_ok _ _ _).mp h2 with ⟨y, _, h3⟩
    rcases (exBind_ok _ _ _).mp h3 with ⟨c, _, h4⟩
    cases h4
    exact boolVal_nanFree _
  | ge a b iha ihb =>
    intro _ v h
    rw [evalE] at h
    rcases (exBind_ok _ _ _).mp h with ⟨x, _, h2⟩
    rcases (exBind_ok _ _ _).mp h2 with ⟨y, _, h3⟩
    rcases (exBind_ok _ _ _).mp h3 with ⟨c, _, h4⟩
    cases h4
    exact boolVal_nanFree _
  | band a b iha ihb =>
    intro ht v h
    rw [nanFreeE, Bool.and_eq_true] at ht
    rw [evalE] at h
    rcases (exBind_ok _ _ _).mp h with ⟨x, hx, h2⟩
    by_cases htr : pyTruthy x
    · rw [if_pos htr] at h2
      exact ihb ht.2 v h2
    · rw [if_neg htr] at h2
      cases h2
      exact iha ht.1 _ hx
  | bor a b iha ihb =>
    intro ht v h
    rw [nanFreeE, Bool.and_eq_true] at ht
    rw [evalE] at h
    rcases (exBind_ok _ _ _).mp h with ⟨x, hx, h2⟩
    by_cases htr : pyTruthy x
    · rw [if_pos htr] at h2
      cases h2
      exact iha ht.1 _ hx
    · rw [if_neg htr] at h2
      exact ihb ht.2 v h2
  | bnot a iha =>
    intro _ v h
    rw [evalE] at h
    rcases (exBind_ok _ _ _).mp h with ⟨x, _, h2⟩
    cases h2
    exact boolVal_nanFree _
  | mem a b iha ihb =>
    intro _ v h
    rw [evalE] at h
    rcases (exBind_ok _ _ _).mp h with ⟨x, _, h2⟩
    rcases (exBind_ok _ _ _).mp h2 with ⟨y, _, h3⟩
    cases x <;> cases y <;> dsimp only [Pure.pure, Except.pure] at h3 <;>
      cases h3
    all_goals exact boolVal_nanFree _

theorem evalFormula_ok (env : List (String × Val)) (e : Expr) (v : Val) :
    evalFormula env e = .ok v ↔ evalE env e = .ok v := by
  unfold evalFormula
  cases h : evalE env e with
  | error err => cases err <;> simp
  | ok w => simp

theorem fmChoices_nanFree (location : String)
    (pr osr pyr vr ur : List (String × ℚ)) (am : ℕ) (natList : List String) :
    ∀ e ∈ fmChoices location pr osr pyr vr ur am natList,
      ∀ v ∈ e.2, nanFreeV v = true := by
  intro e he v hv
  simp only [fmChoices, List.mem_cons, List.not_mem_nil, or_false] at he
  rcases he with rfl|rfl|rfl|rfl|rfl|rfl|rfl|rfl|rfl|rfl|rfl|rfl|rfl|rfl
  all_goals
    first
      | (rcases List.mem_map.mp hv with ⟨w, hw, rfl⟩; rfl)
      | (fin_cases hv <;> rfl)

theorem fmCombos_mem (choices : List (String × List Val)) :
    ∀ (names : List String) (combos : List (List (String × Val))),
      fmCombos names choices = .ok combos →
      ∀ combo ∈ combos, ∀ p ∈ combo,
        ∃ vs, choices.lookup p.1 = some vs ∧ p.2 ∈ vs := by
  intro names
  induction names with
  | nil =>
    intro combos h combo hc p hp
    injection h with h'
    subst h'
    rcases List.mem_singleton.mp hc with rfl
    cases hp
  | cons n ns ih =>
    intro combos h combo hc p hp
    rw [fmCombos] at h
    cases hl : choices.lookup n with
    | none => rw [hl] at h; cases h
    | some vs =>
      rw [hl] at h
      cases hrest : fmCombos ns choices with
      | error e => rw [hrest] at h; cases h
      | ok rest =>
        rw [hrest] at h
        injection h with h'
        subst h'
        rcases List.mem_flatten.mp hc with ⟨sub, hsub, hcs⟩
        rcases List.mem_map.mp hsub with ⟨v, hv, rfl⟩
        rcases List.mem_map.mp hcs with ⟨c0, hc0, rfl⟩
        rcases List.mem_cons.mp hp with rfl | hp'
        · exact ⟨vs, hl, hv⟩
        · exact ih rest hrest c0 hc0 p hp'

/-! ## Claim C8: the Python `min`/`max` folds over numeric lists -/

theorem pyMaxFold_ok_num : ∀ (xs : List Val) (acc v : Val),
    pyMaxFold acc xs = .ok v → (∃ o, v = .num o) →
    (∃ oa, acc = .num oa) ∧ ∀ x ∈ xs, ∃ ox, x = .num ox := by
  intro xs
  induction xs with
  | nil =>
    intro acc v h hv
    injection h with h'
    subst h'
    exact ⟨hv, fun x hx => absurd hx (List.not_mem_nil x)⟩
  | cons x t ih =>
    intro acc v h hv
    rw [pyMaxFold] at h
    cases hlt : pyLtV acc x with
    | error e => rw [hlt] at h; cases h
    | ok b =>
      rw [hlt] at h
      obtain ⟨⟨oacc', hacc'⟩, hall⟩ := ih _ v h hv
      cases acc <;> cases x <;> (try simp [pyLtV] at hlt)
      · refine ⟨⟨_, rfl⟩, fun z hz => ?_⟩
        rcases List.mem_cons.mp hz with rfl | hz'
        · exact ⟨_, rfl⟩
        · exact hall z hz'
      · exfalso
        by_cases hb : b = true
        · rw [hb] at hacc'
          simp at hacc'
        · rw [Bool.not_eq_true] at hb
          rw [hb] at hacc'
          simp at hacc'

theorem pyMinFold_ok_num : ∀ (xs : List Val) (acc v : Val),
    pyMinFold acc xs = .ok v → (∃ o, v = .num o) →
    (∃ oa, acc = .num oa) ∧ ∀ x ∈ xs, ∃ ox, x = .num ox := by
  intro xs
  induction xs with
  | nil =>
    intro acc v h hv
    injection h with h'
    subst h'
    exact ⟨hv, fun x hx => absurd hx (List.not_mem_nil x)⟩
  | cons x t ih =>
    intro acc v h hv
    rw [pyMinFold] at h
    cases hlt : pyLtV x acc with
    | error e => rw [hlt] at h; cases h
    | ok b =>
      rw [hlt] at h
      obtain ⟨⟨oacc', hacc'⟩, hall⟩ := ih _ v h hv
      cases acc <;> cases x <;> (try simp [pyLtV] at hlt)
      · refine ⟨⟨_, rfl⟩, fun z hz => ?_⟩
        rcases List.mem_cons.mp hz with rfl | hz'
        · exact ⟨_, rfl⟩
        · exact hall z hz'
      · exfalso
        by_cases hb : b = true
        · rw [hb] at hacc'
          simp at hacc'
        · rw [Bool.not_eq_true] at hb
          rw [hb] at hacc'
          simp at hacc'

theorem pyMaxFold_bound : ∀ (xs : List Val) (a : ℚ),
    (∀ x ∈ xs, ∃ q : ℚ, x = .num (some q)) →
    ∃ m : ℚ, pyMaxFold (.num (some a)) xs = .ok (.num (some m)) ∧ a ≤ m ∧
      ∀ q : ℚ, Val.num (some q) ∈ xs → q ≤ m := by
  intro xs
  induction xs with
  | nil =>
    intro a _
    exact ⟨a, rfl, le_refl a, fun q hq => absurd hq (List.not_mem_nil _)⟩
  | cons x t ih =>
    intro a hall
    rcases hall x (List.mem_cons_self _ _) with ⟨b, rfl⟩
    have htail : ∀ z ∈ t, ∃ q : ℚ, z = .num (some q) :=
      fun z hz => hall z (List.mem_cons_of_mem _ hz)
    by_cases hab : a < b
    · rcases ih b htail with ⟨m, hm, hbm, hallm⟩
      refine ⟨m, ?_, le_trans (le_of_lt hab) hbm, ?_⟩
      · rw [pyMaxFold]
        show pyMaxFold (if decide (a < b) = true then Val.num (some b)
          else Val.num (some a)) t = _
        rw [if_pos (by simpa using hab)]
        exact hm
      · intro q hq
        rcases List.mem_cons.mp hq with heq | hq'
        · injection heq with heq'
          injection heq' with heq''
          rw [heq'']
          exact hbm
        · exact hallm q hq'
    · rcases ih a htail with ⟨m, hm, ham, hallm⟩
      refine ⟨m, ?_, ham, ?_⟩
      · rw [pyMaxFold]
        show pyMaxFold (if decide (a < b) = true then Val.num (some b)
          else Val.num (some a)) t = _
        rw [if_neg (by simpa using hab)]
        exact hm
      · intro q hq
        rcases List.mem_cons.mp hq with heq | hq'
        · injection heq with heq'
          injection heq' with heq''
          rw [heq'']
          exact le_trans (le_of_not_lt hab) ham
        · exact hallm q hq'

theorem pyMinFold_bound : ∀ (xs : List Val) (a : ℚ),
    (∀ x ∈ xs, ∃ q : ℚ, x = .num (some q)) →
    ∃ m : ℚ, pyMinFold (.num (some a)) xs = .ok (.num (some m)) ∧ m ≤ a ∧
      ∀ q : ℚ, Val.num (some q) ∈ xs → m ≤ q := by
  intro xs
  induction xs with
  | nil =>
    intro a _
    exact ⟨a, rfl, le_refl a, fun q hq => absurd hq (List.not_mem_nil _)⟩
  | cons x t ih =>
    intro a hall
    rcases hall x (List.mem_cons_self _ _) with ⟨b, rfl⟩
    have htail : ∀ z ∈ t, ∃ q : ℚ, z = .num (some q) :=
      fun z hz => hall z (List.mem_cons_of_mem _ hz)
    by_cases hab : b < a
    · rcases ih b htail with ⟨m, hm, hbm, hallm⟩
      refine ⟨m, ?_, le_trans hbm (le_of_lt hab), ?_⟩
      · rw [pyMinFold]
        show pyMinFold (if decide (b < a) = true then Val.num (some b)
          else Val.num (some a)) t = _
        rw [if_pos (by simpa using hab)]
        exact hm
      · intro q hq
        rcases List.mem_cons.mp hq with heq | hq'
        · injection heq with heq'
          injection heq' with heq''
          rw [heq'']
          exact hbm
        · exact hallm q hq'
    · rcases ih a htail with ⟨m, hm, ham, hallm⟩
      refine ⟨m, ?_, ham, ?_⟩
      · rw [pyMinFold]
        show pyMinFold (if decide (b < a) = true then Val.num (some b)
          else Val.num (some a)) t = _
        rw [if_neg (by simpa using hab)]
        exact hm
      · intro q hq
        rcases List.mem_cons.mp hq with heq | hq'
        · injection heq with heq'
          injection heq' with heq''
          rw [heq'']
          exact le_trans ham (le_of_not_lt hab)
        · exact hallm q hq'

theorem pyMaxList_bound (values : List Val) (hne : values ≠ [])
    (hall : ∀ x ∈ values, ∃ q : ℚ, x = .num (some q)) :
    ∃ m : ℚ, pyMaxList values = .ok (.num (some m)) ∧
      ∀ q : ℚ, Val.num (some q) ∈ values → q ≤ m := by
  cases values with
  | nil => exact absurd rfl hne
  | cons x t =>
    rcases hall x (List.mem_cons_self _ _) with ⟨a, rfl⟩
    rcases pyMaxFold_bound t a
      (fun z hz => hall z (List.mem_cons_of_mem _ hz)) with ⟨m, hm, ham, hallm⟩
    refine ⟨m, hm, fun q hq => ?_⟩
    rcases List.mem_cons.mp hq with heq | hq'
    · injection heq with heq'
      injection heq' with heq''
      rw [heq'']
      exact ham
    · exact hallm q hq'

theorem pyMinList_bound (values : List Val) (hne : values ≠ [])
    (hall : ∀ x ∈ values, ∃ q : ℚ, x = .num (some q)) :
    ∃ m : ℚ, pyMinList values = .ok (.num (some m)) ∧
      ∀ q : ℚ, Val.num (some q) ∈ values → m ≤ q := by
  cases values with
  | nil => exact absurd rfl hne
  | cons x t =>
    rcases hall x (List.mem_cons_self _ _) with ⟨a, rfl⟩
    rcases pyMinFold_bound t a
      (fun z hz => hall z (List.mem_cons_of_mem _ hz)) with ⟨m, hm, ham, hallm⟩
    refine ⟨m, hm, fun q hq => ?_⟩
    rcases List.mem_cons.mp hq with heq | hq'
    · injection heq with heq'
      injection heq' with heq''
      rw [heq'']
      exact ham
    · exact hallm q hq'

theorem pySub_ok_num (x y d : Val) (h : pySub x y = .ok d) :
    ∃ ox oy, x = .num ox ∧ y = .num oy
      ∧ d = .num (liftNum2 (· - ·) ox oy) := by
  cases x <;> cases y <;> simp [pySub] at h
  exact ⟨_, _, rfl, rfl, h.symm⟩

theorem termsOf_nanFree : ∀ e : Expr, nanFreeE e = true →
    ∀ t ∈ termsOf e, nanFreeE t = true := by
  intro e
  cases e with
  | add a b =>
    intro h t ht
    rw [nanFreeE, Bool.and_eq_true] at h
    rw [termsOf] at ht
    rcases List.mem_append.mp ht with ht' | ht'
    · exact termsOf_nanFree a h.1 t ht'
    · exact termsOf_nanFree b h.2 t ht'
  | lit v => intro h t ht; rcases List.mem_singleton.mp ht with rfl; exact h
  | var n => intro h t ht; rcases List.mem_singleton.mp ht with rfl; exact h
  | sub a b => intro h t ht; rcases List.mem_singleton.mp ht with rfl; exact h
  | mul a b => intro h t ht; rcases List.mem_singleton.mp ht with rfl; exact h
  | div a b => intro h t ht; rcases List.mem_singleton.mp ht with rfl; exact h
  | eq a b => intro h t ht; rcases List.mem_singleton.mp ht with rfl; exact h
  | ne a b => intro h t ht; rcases List.mem_singleton.mp ht with rfl; exact h
  | lt a b => intro h t ht; rcases List.mem_singleton.mp ht with rfl; exact h
  | le a b => intro h t ht; rcases List.mem_singleton.mp ht with rfl; exact h
  | gt a b => intro h t ht; rcases List.mem_singleton.mp ht with rfl; exact h
  | ge a b => intro h t ht; rcases List.mem_singleton.mp ht with rfl; exact h
  | band a b => intro h t ht; rcases List.mem_singleton.mp ht with rfl; exact h
  | bor a b => intro h t ht; rcases List.mem_singleton.mp ht with rfl; exact h
  | bnot a => intro h t ht; rcases List.mem_singleton.mp ht with rfl; exact h
  | mem a b => intro h t ht; rcases List.mem_singleton.mp ht with rfl; exact h

theorem termsOf_single (e : Expr) (h : ∀ a b, e ≠ .add a b) :
    termsOf e = [e] := by
  cases e with
  | add a b => exact absurd rfl (h a b)
  | lit v => rfl
  | var n => rfl
  | sub a b => rfl
  | mul a b => rfl
  | div a b => rfl
  | eq a b => rfl
  | ne a b => rfl
  | lt a b => rfl
  | le a b => rfl
  | gt a b => rfl
  | ge a b => rfl
  | band a b => rfl
  | bor a b => rfl
  | bnot a => rfl
  | mem a b => rfl

theorem contribOf_ok_inv (combos : List (List (String × Val))) (mn mx : Val)
    (t : Expr) (tc : Expr × Val) (h : contribOf combos mn mx t = .ok tc) :
    ∃ tvals tmx tmn d1 d2 r c,
      exMapM (fun combo => evalFormula combo t) combos = .ok tvals
      ∧ pyMaxList tvals = .ok tmx ∧ pyMinList tvals = .ok tmn
      ∧ pySub tmx tmn = .ok d1 ∧ pySub mx mn = .ok d2
      ∧ pyDiv d1 d2 = .ok r ∧ pyMul r (.num (some 100)) = .ok c
      ∧ tc = (t, c) := by
  rw [contribOf] at h
  cases h1 : exMapM (fun combo => evalFormula combo t) combos with
  | error e => rw [h1] at h; cases h
  | ok tvals =>
    rw [h1] at h
    dsimp only at h
    cases h2 : pyMaxList tvals with
    | error e => rw [h2] at h; cases h
    | ok tmx =>
      rw [h2] at h
      dsimp only at h
      cases h3 : pyMinList tvals with
      | error e => rw [h3] at h; cases h
      | ok tmn =>
        rw [h3] at h
        dsimp only at h
        cases h4 : pySub tmx tmn with
        | error e => rw [h4] at h; cases h
        | ok d1 =>
          rw [h4] at h
          dsimp only at h
          cases h5 : pySub mx mn with
          | error e => rw [h5] at h; cases h
          | ok d2 =>
            rw [h5] at h
            dsimp only at h
            cases h6 : pyDiv d1 d2 with
            | error e => rw [h6] at h; cases h
            | ok r =>
              rw [h6] at h
              dsimp only at h
              cases h7 : pyMul r (.num (some 100)) with
              | error e => rw [h7] at h; cases h
              | ok c =>
                rw [h7] at h
                dsimp only at h
                injection h with h'
                exact ⟨tvals, tmx, tmn, d1, d2, r, c,
                  rfl, h2, h3, h4, rfl, h6, h7, h'.symm⟩

/-- If `max` over a non-empty NaN-free list of values succeeds with a numeric
result, every element of the list is a finite number. -/
theorem vals_num_some (vals : List Val) (mxv : Val) (omx : Option ℚ)
    (hne : vals ≠ []) (hmax : pyMaxList vals = .ok mxv) (hm : mxv = .num omx)
    (hNF : ∀ x ∈ vals, nanFreeV x = true) :
    ∀ x ∈ vals, ∃ q : ℚ, x = .num (some q) := by
  cases vals with
  | nil => exact absurd rfl hne
  | cons v0 vt =>
    rw [pyMaxList] at hmax
    obtain ⟨⟨o0, hv0⟩, hallnum⟩ := pyMaxFold_ok_num vt v0 mxv hmax ⟨omx, hm⟩
    intro x hx
    have hxN := hNF x hx
    have hxnum : ∃ ox, x = .num ox := by
      rcases List.mem_cons.mp hx with rfl | hx'
      · exact ⟨o0, hv0⟩
      · exact hallnum x hx'
    rcases hxnum with ⟨ox, rfl⟩
    simp only [nanFreeV] at hxN
    rcases Option.isSome_iff_exists.mp hxN with ⟨q, rfl⟩
    exact ⟨q, rfl⟩

/-- The minimum of a non-empty all-numeric value list does not exceed the
maximum. -/
theorem minmax_le (vals : List Val) (hne : vals ≠ [])
    (hvnum : ∀ x ∈ vals, ∃ q : ℚ, x = .num (some q)) (mnq mxq : ℚ)
    (hminbd : ∀ q : ℚ, Val.num (some q) ∈ vals → mnq ≤ q)
    (hmaxbd : ∀ q : ℚ, Val.num (some q) ∈ vals → q ≤ mxq) :
    mnq ≤ mxq := by
  cases vals with
  | nil => exact absurd rfl hne
  | cons v0 vt =>
    rcases hvnum v0 (List.mem_cons_self _ _) with ⟨q0, hq0⟩
    have hmem : Val.num (some q0) ∈ v0 :: vt := by
      rw [← hq0]
      exact List.mem_cons_self _ _
    exact le_trans (hminbd q0 hmem) (hmaxbd q0 hmem)

/-- C8 (counterexample): contributions are NOT bounded by 100.  For the
formula `nonmale + (1 - 2*nonmale)` (one applicant pool entry with
`napplied = 0`, no rating tables, home location "B") range analysis
succeeds with overall range [0, 1], but the second term varies over
[-1, 1], so its contribution is (1-(-1))/(1-0)*100 = 200 percent,
outside [0, 100]. -/
theorem c8_counterexample :
    findMinMax
      (.add (.var "nonmale")
        (.sub (.lit (.num (some 1)))
          (.mul (.lit (.num (some 2))) (.var "nonmale"))))
      "nonmale + (1 - 2*nonmale)" "B" [] [] [] [] [] [0] [] []
      = .ok (Val.num (some 0), Val.num (some 1),
          [(.var "nonmale", Val.num (some 100)),
           (.sub (.lit (.num (some 1)))
              (.mul (.lit (.num (some 2))) (.var "nonmale")),
            Val.num (some 200))])
    ∧ ¬ ((200 : ℚ) ≤ 100) := by
  constructor
  · rfl
  · norm_num

/-- C8 (amended): whenever `find_min_max` succeeds on a NaN-free formula,
every per-term contribution it returns is a finite non-negative number
(but, per the counterexample, not necessarily at most 100); and when the
formula is a single `+`-term and the item list is non-empty, that single
term's contribution is exactly 100 percent. -/
theorem c8_contribution_bounds (formula : Expr) (ftext location : String)
    (pr osr pyr vr ur : List (String × ℚ)) (applied : List ℕ)
    (allN allA : List String) (mn mx : Val) (items : List (Expr × Val))
    (hnf : nanFreeE formula = true)
    (h : findMinMax formula ftext location pr osr pyr vr ur applied allN allA
      = .ok (mn, mx, items)) :
    (∀ tc ∈ items, ∃ q : ℚ, tc.2 = Val.num (some q) ∧ 0 ≤ q)
    ∧ ((∀ a b, formula ≠ .add a b) → items ≠ [] →
        items = [(formula, Val.num (some 100))]) := by
  cases applied with
  | nil => cases h
  | cons a0 arest =>
    rw [findMinMax] at h
    cases hcombos : fmCombos (findNames formula)
        (fmChoicesOf ftext location pr osr pyr vr ur a0 arest allN allA) with
    | error e => rw [hcombos] at h; cases h
    | ok combos =>
      rw [hcombos] at h
      dsimp only at h
      cases hev : exMapM (fun combo => evalFormula combo formula) combos with
      | error e => rw [hev] at h; cases h
      | ok values =>
        rw [hev] at h
        dsimp only at h
        by_cases hvnil : values = []
        · rw [if_pos hvnil] at h
          injection h with h'
          injection h' with h1 h2
          injection h2 with h2a h2b
          constructor
          · intro tc htc
            rw [← h2b] at htc
            cases htc
          · intro _ hne
            exact absurd h2b.symm hne
        · rw [if_neg hvnil] at h
          cases hmin : pyMinList values with
          | error e => rw [hmin] at h; cases h
          | ok minsc =>
            rw [hmin] at h
            dsimp only at h
            cases hmax : pyMaxList values with
            | error e => rw [hmax] at h; cases h
            | ok maxsc =>
              rw [hmax] at h
              dsimp only at h
              cases hit : exMapM (contribOf combos minsc maxsc)
                  (termsOf formula) with
              | error e => rw [hit] at h; cases h
              | ok items0 =>
                rw [hit] at h
                dsimp only at h
                injection h with h'
                injection h' with h1 h2
                injection h2 with h2a h2b
                subst h1
                subst h2a
                subst h2b
                have hcomboNF : ∀ combo ∈ combos, ∀ p ∈ combo,
                    nanFreeV p.2 = true := by
                  intro combo hc p hp
                  rcases fmCombos_mem _ _ _ hcombos combo hc p hp with
                    ⟨vs, hvs, hpv⟩
                  exact fmChoices_nanFree _ _ _ _ _ _ _ _ _
                    (lookupOf_mem _ _ _ hvs) p.2 hpv
                have hvalsNF : ∀ x ∈ values, nanFreeV x = true := by
                  intro x hx
                  rcases exMapM_ok_mem _ _ _ hev x hx with ⟨combo, hc, hfx⟩
                  exact evalE_nanFree combo (hcomboNF combo hc) formula hnf x
                    ((evalFormula_ok _ _ _).mp hfx)
                obtain ⟨t0, ts, hts⟩ :
                    ∃ t0 ts, termsOf formula = t0 :: ts := by
                  cases hcase : termsOf formula with
                  | nil => exact absurd hcase (termsOf_ne_nil formula)
                  | cons t0 ts => exact ⟨t0, ts, rfl⟩
                rw [hts] at hit
                rcases exMapM_cons_ok _ _ _ _ hit with
                  ⟨c0, cs, hc0, hcs, hitems0⟩
                rcases contribOf_ok_inv _ _ _ _ _ hc0 with
                  ⟨tv0, tmx0, tmn0, e1, e2, r0, cc0,
                    hA, hB, hC, hD, hE2, hF, hG, hH⟩
                rcases pySub_ok_num _ _ _ hE2 with ⟨omx, omn, hmaxsc, hminsc, _⟩
                have hvnum := vals_num_some values maxsc omx hvnil hmax
                  hmaxsc hvalsNF
                obtain ⟨mxq, hmaxeq, hmaxbd⟩ := pyMaxList_bound values hvnil hvnum
                obtain ⟨mnq, hmineq, hminbd⟩ := pyMinList_bound values hvnil hvnum
                rw [hmax] at hmaxeq
                injection hmaxeq with hmaxv
                subst hmaxv
                rw [hmin] at hmineq
                injection hmineq with hminv
                subst hminv
                have hmnmx : mnq ≤ mxq :=
                  minmax_le values hvnil hvnum mnq mxq hminbd hmaxbd
                have hcombne : combos ≠ [] := by
                  intro hc
                  rw [hc, exMapM] at hev
                  injection hev with h''
                  exact hvnil h''.symm
                constructor
                · intro tc htc
                  rcases exMapM_ok_mem _ _ _ hit tc htc with ⟨t, hterm, hct⟩
                  rcases contribOf_ok_inv _ _ _ _ _ hct with
                    ⟨tvals, tmx, tmn, d1, d2, r, c,
                      hev2, hmax2, hmin2, hd1, hd2, hdiv, hmul, rfl⟩
                  have htnf : nanFreeE t = true :=
                    termsOf_nanFree formula hnf t (by rw [hts]; exact hterm)
                  have htvNF : ∀ x ∈ tvals, nanFreeV x = true := by
                    intro x hx
                    rcases exMapM_ok_mem _ _ _ hev2 x hx with ⟨combo, hc, hfx⟩
                    exact evalE_nanFree combo (hcomboNF combo hc) t htnf x
                      ((evalFormula_ok _ _ _).mp hfx)
                  have htvne : tvals ≠ [] := by
                    intro htv
                    rw [htv] at hev2
                    exact hcombne (exMapM_ok_nil _ _ hev2)
                  rcases pySub_ok_num _ _ _ hd1 with
                    ⟨otx, otn, htmxE, htmnE, hd1e⟩
                  have htvnum := vals_num_some tvals tmx otx htvne hmax2
                    htmxE htvNF
                  obtain ⟨tmxq, htmxeq, htmxbd⟩ :=
                    pyMaxList_bound tvals htvne htvnum
                  obtain ⟨tmnq, htmneq, htmnbd⟩ :=
                    pyMinList_bound tvals htvne htvnum
                  rw [hmax2] at htmxeq
                  injection htmxeq with htmxv
                  subst htmxv
                  rw [hmin2] at htmneq
                  injection htmneq with htmnv
                  subst htmnv
                  have htmm : tmnq ≤ tmxq :=
                    minmax_le tvals htvne htvnum tmnq tmxq htmnbd htmxbd
                  have hd1v : d1 = Val.num (some (tmxq - tmnq)) := by
                    have heq : pySub (Val.num (some tmxq)) (Val.num (some tmnq))
                        = .ok (Val.num (some (tmxq - tmnq))) := rfl
                    rw [heq] at hd1
                    injection hd1 with h''
                    exact h''.symm
                  have hd2v : d2 = Val.num (some (mxq - mnq)) := by
                    have heq : pySub (Val.num (some mxq)) (Val.num (some mnq))
                        = .ok (Val.num (some (mxq - mnq))) := rfl
                    rw [heq] at hd2
                    injection hd2 with h''
                    exact h''.symm
                  subst hd1v
                  subst hd2v
                  have hDne : ¬ (mxq - mnq = 0) := by
                    intro h0
                    simp only [pyDiv] at hdiv
                    rw [if_pos h0] at hdiv
                    cases hdiv
                  have hrv : r = Val.num (some ((tmxq - tmnq) / (mxq - mnq))) := by
                    simp only [pyDiv] at hdiv
                    rw [if_neg hDne] at hdiv
                    injection hdiv with h''
                    exact h''.symm
                  subst hrv
                  have hcv : c = Val.num
                      (some ((tmxq - tmnq) / (mxq - mnq) * 100)) := by
                    have heq : pyMul
                        (Val.num (some ((tmxq - tmnq) / (mxq - mnq))))
                        (Val.num (some 100))
                        = .ok (Val.num
                            (some ((tmxq - tmnq) / (mxq - mnq) * 100))) := rfl
                    rw [heq] at hmul
                    injection hmul with h''
                    exact h''.symm
                  refine ⟨(tmxq - tmnq) / (mxq - mnq) * 100, hcv, ?_⟩
                  have hT : (0 : ℚ) ≤ tmxq - tmnq := sub_nonneg.mpr htmm
                  have hD : (0 : ℚ) < mxq - mnq :=
                    lt_of_le_of_ne (sub_nonneg.mpr hmnmx) (Ne.symm hDne)
                  exact mul_nonneg (div_nonneg hT (le_of_lt hD)) (by norm_num)
                · intro hadd hne0
                  have hts1 : termsOf formula = [formula] :=
                    termsOf_single formula hadd
                  rw [hts] at hts1
                  injection hts1 with ht0 hts'
                  subst ht0
                  subst hts'
                  have hcs0 : cs = [] := by
                    rw [exMapM] at hcs
                    injection hcs with h''
                    exact h''.symm
                  rcases contribOf_ok_inv _ _ _ _ _ hc0 with
                    ⟨tvals, tmx, tmn, d1, d2, r, c,
                      hev2, hmax2, hmin2, hd1, hd2, hdiv, hmul, hceq⟩
                  rw [hev] at hev2
                  injection hev2 with htv
                  subst htv
                  rw [hmax] at hmax2
                  injection hmax2 with htmx
                  subst htmx
                  rw [hmin] at hmin2
                  injection hmin2 with htmn
                  subst htmn
                  have hd1v : d1 = Val.num (some (mxq - mnq)) := by
                    have heq : pySub (Val.num (some mxq)) (Val.num (some mnq))
                        = .ok (Val.num (some (mxq - mnq))) := rfl
                    rw [heq] at hd1
                    injection hd1 with h''
                    exact h''.symm
                  have hd2v : d2 = Val.num (some (mxq - mnq)) := by
                    have heq : pySub (Val.num (some mxq)) (Val.num (some mnq))
                        = .ok (Val.num (some (mxq - mnq))) := rfl
                    rw [heq] at hd2
                    injection hd2 with h''
                    exact h''.symm
                  subst hd1v
                  subst hd2v
                  have hDne : ¬ (mxq - mnq = 0) := by
                    intro h0
                    simp only [pyDiv] at hdiv
                    rw [if_pos h0] at hdiv
                    cases hdiv
                  have hrv : r = Val.num
                      (some ((mxq - mnq) / (mxq - mnq))) := by
                    simp only [pyDiv] at hdiv
                    rw [if_neg hDne] at hdiv
                    injection hdiv with h''
                    exact h''.symm
                  subst hrv
                  have hcv : c = Val.num
                      (some ((mxq - mnq) / (mxq - mnq) * 100)) := by
                    have heq : pyMul
                        (Val.num (some ((mxq - mnq) / (mxq - mnq))))
                        (Val.num (some 100))
                        = .ok (Val.num
                            (some ((mxq - mnq) / (mxq - mnq) * 100))) := rfl
                    rw [heq] at hmul
                    injection hmul with h''
                    exact h''.symm
                  have hr1 : (mxq - mnq) / (mxq - mnq) = 1 := div_self hDne
                  rw [hitems0, hcs0, hceq, hcv, hr1, one_mul]

/-- C8 witness: the single-term formula `nonmale` over one applicant with
`napplied = 0` analyzes to range [0, 1] with the single contribution item
`(nonmale, 100)`, which is finite, non-negative, and exactly 100. -/
theorem c8_witness :
    (∀ tc ∈ [((Expr.var "nonmale" : Expr), Val.num (some 100))],
        ∃ q : ℚ, tc.2 = Val.num (some q) ∧ 0 ≤ q)
    ∧ [((Expr.var "nonmale" : Expr), Val.num (some 100))]
        = [((Expr.var "nonmale" : Expr), Val.num (some 100))] := by
  have h := c8_contribution_bounds (.var "nonmale") "nonmale" "B" [] [] [] []
    [] [0] [] [] (Val.num (some 0)) (Val.num (some 1))
    [(Expr.var "nonmale", Val.num (some 100))] rfl rfl
  exact ⟨h.1, h.2 (fun a b hab => by cases hab) (fun hx => by cases hx)⟩

end ASPP
